import Mathlib

/-!
# WorkSphere matching backend — verification of the core matching logic

Shallow embedding of `src/matching_logic.py` (worker/job matching by
TF-IDF + cosine similarity) and proofs of the specification claims.

Modelling conventions:
* Python strings are Lean `String`s (lists of Unicode characters).
* `None`-or-string arguments are `Option String`.
* IEEE-754 doubles are modelled by an arbitrary `LinearOrderedField`
  (instantiated at `ℚ` for executable witnesses and at `ℝ` for the
  facts about the actual cosine-similarity values, which are
  irrational).  `NaN` has no representative: the similarity values the
  program manipulates are cosine similarities of finite non-negative
  vectors, which are always real numbers (the zero-magnitude case is
  defined to be 0), so the `np.isnan` filter in the source never fires.
* The numeric library calls (`TfidfVectorizer.fit_transform`,
  `cosine_similarity`) are modelled by an abstract `Backend` record;
  the contract sklearn documents for them (shapes, non-negative
  entries, the cosine formula) enters the theorems as hypotheses.
-/

namespace WorkSphere

/-! ## Character-level model of Python's `str.lower`, `\w` and `\s` -/

/-- Python's `str.lower` restricted to the characters that occur in this
repository's data (ASCII letters; the accented letters appearing in the
corpus are already lower-case, and `lower` fixes them). -/
def pyLower (c : Char) : Char :=
  match c with
  | 'A' => 'a' | 'B' => 'b' | 'C' => 'c' | 'D' => 'd' | 'E' => 'e'
  | 'F' => 'f' | 'G' => 'g' | 'H' => 'h' | 'I' => 'i' | 'J' => 'j'
  | 'K' => 'k' | 'L' => 'l' | 'M' => 'm' | 'N' => 'n' | 'O' => 'o'
  | 'P' => 'p' | 'Q' => 'q' | 'R' => 'r' | 'S' => 's' | 'T' => 't'
  | 'U' => 'u' | 'V' => 'v' | 'W' => 'w' | 'X' => 'x' | 'Y' => 'y'
  | 'Z' => 'z' | c => c

/-- The non-ASCII word characters (Python `\w`) occurring in this
repository's corpus, together with their upper-case forms.  Python's
`\w` matches every Unicode letter; this finite list covers every
character of the repository's data, which is all the claims range
over. -/
def wordExtra : List Char :=
  ['á', 'à', 'â', 'ã', 'ç', 'é', 'è', 'ê', 'í', 'ì', 'î', 'ó', 'ò', 'ô',
   'õ', 'ú', 'ù', 'û', 'ñ', 'ü', 'ö', 'ä', 'ë', 'ï',
   'Á', 'À', 'Â', 'Ã', 'Ç', 'É', 'È', 'Ê', 'Í', 'Ì', 'Î', 'Ó', 'Ò', 'Ô',
   'Õ', 'Ú', 'Ù', 'Û', 'Ñ']

/-- Model of Python's regex class `\w` (word character): ASCII letters,
digits, underscore, plus the non-ASCII letters of this corpus. -/
def isWordChar (c : Char) : Bool :=
  (('a' ≤ c ∧ c ≤ 'z') || ('A' ≤ c ∧ c ≤ 'Z') || ('0' ≤ c ∧ c ≤ '9')
    || c = '_' || wordExtra.contains c : Bool)

/-- Model of Python's regex class `\s` (whitespace) on the ASCII range. -/
def isSpaceChar (c : Char) : Bool :=
  c = ' ' || c = '\t' || c = '\n' || c = '\r' || c = '\x0b' || c = '\x0c'

/-- `re.sub(p+, ' ', ·)` on a character list: every maximal run of
characters satisfying `p` is replaced by a single `' '`.  The Boolean
argument records whether the previous character was part of a run. -/
def collapseAux (p : Char → Bool) : Bool → List Char → List Char
  | _, [] => []
  | inRun, c :: cs =>
    if p c then
      if inRun then collapseAux p true cs
      else ' ' :: collapseAux p true cs
    else c :: collapseAux p false cs

/-- `re.sub(p+, ' ', l)`. -/
def collapseRuns (p : Char → Bool) (l : List Char) : List Char :=
  collapseAux p false l

/-- Complement of `isWordChar`, i.e. Python's `\W`. -/
def nonWord (c : Char) : Bool := !isWordChar c

/-- Python `str.strip()` on a character list. -/
def stripChars (l : List Char) : List Char :=
  ((l.dropWhile isSpaceChar).reverse.dropWhile isSpaceChar).reverse

/-- Python's `str.rstrip()` on a character list. -/
def rstrip (l : List Char) : List Char :=
  (l.reverse.dropWhile isSpaceChar).reverse

/-- `preprocessar_texto` from `src/matching_logic.py`: non-string input
(`none`) yields `""`; a string is lower-cased, `re.sub(r'\W+', ' ', ·)`
replaces non-word runs with one space, `re.sub(r'\s+', ' ', ·)`
collapses whitespace and `.strip()` trims the ends. -/
def preprocessar_texto : Option String → String
  | none => ""
  | some s =>
    String.mk (stripChars (collapseRuns isSpaceChar
      (collapseRuns nonWord (s.data.map pyLower))))

/-! ## Specification-side formulation of the normalizer

The spec describes the output as: the maximal word-character runs of
the lower-cased input, joined by single spaces.  `words` extracts those
maximal runs; `specNormalize` joins them. -/

/-- The maximal runs of word characters of a character list, in order. -/
def words : List Char → List (List Char)
  | [] => []
  | c :: cs =>
    if isWordChar c then
      match cs.head? with
      | some d =>
        if isWordChar d then
          match words cs with
          | r :: rs => (c :: r) :: rs
          | [] => [[c]]
        else [c] :: words cs
      | none => [[c]]
    else words cs

/-- The normalizer as the spec phrases it: lower-case, then join the
maximal word-character runs with single spaces. -/
def specNormalize (s : String) : String :=
  String.mk (List.intercalate [' '] (words (s.data.map pyLower)))

/-! ## Data model -/

/-- A worker record. -/
structure Trabalhador where
  id : String
  nome : String
  habilidades : String
  experiencia : String
  deriving DecidableEq

/-- A job record. -/
structure Vaga where
  id : String
  titulo : String
  empresa : String
  requisitos_habilidades : String
  descricao : String
  deriving DecidableEq

/-- The fields `criar_documento` reads off an input dictionary via
`.get(key, '')`; `none` models an absent key. -/
structure Item where
  habilidades : Option String
  experiencia : Option String
  requisitos_habilidades : Option String
  descricao : Option String
  deriving DecidableEq

def Trabalhador.toItem (t : Trabalhador) : Item :=
  ⟨some t.habilidades, some t.experiencia, none, none⟩

def Vaga.toItem (v : Vaga) : Item :=
  ⟨none, none, some v.requisitos_habilidades, some v.descricao⟩

/-- `criar_documento` from `src/matching_logic.py`. -/
def criar_documento (item : Item) (tipo : String) : String :=
  if tipo = "trabalhador" then
    let texto_habilidades := preprocessar_texto (some (item.habilidades.getD ""))
    let texto_experiencia := preprocessar_texto (some (item.experiencia.getD ""))
    String.mk (stripChars (texto_habilidades ++ " " ++ texto_experiencia).data)
  else if tipo = "vaga" then
    let texto_requisitos :=
      preprocessar_texto (some (item.requisitos_habilidades.getD ""))
    let texto_descricao := preprocessar_texto (some (item.descricao.getD ""))
    String.mk (stripChars (texto_requisitos ++ " " ++ texto_descricao).data)
  else ""

/-- The sample worker list of `src/matching_logic.py`. -/
def trabalhadores : List Trabalhador :=
  [⟨"t1", "Ana Silva",
    "Python, Machine Learning, Análise de Dados, SQL, Pandas, Scikit-learn",
    "Cientista de Dados Júnior com 2 anos de experiência em projetos de classificação e regressão. Experiência com visualização de dados usando Matplotlib e Seaborn."⟩,
   ⟨"t2", "Bruno Costa",
    "JavaScript, React, Node.js, HTML, CSS, MongoDB",
    "Desenvolvedor Web Full-Stack com 5 anos de experiência na criação de aplicações web responsivas e escaláveis. Experiência com APIs RESTful."⟩,
   ⟨"t3", "Carla Dias",
    "Java, Spring Boot, Microserviços, Docker, Kubernetes, AWS",
    "Engenheira de Software Sênior com 8 anos de experiência em desenvolvimento backend e arquitetura de sistemas distribuídos. Foco em soluções cloud-native."⟩,
   ⟨"t4", "Daniel Souza",
    "Python, Django, Flask, PostgreSQL, Testes Unitários",
    "Desenvolvedor Backend Pleno com 3 anos de experiência em desenvolvimento de APIs web com Python. Conhecimento em bancos de dados relacionais."⟩]

/-- The sample job list of `src/matching_logic.py`. -/
def vagas : List Vaga :=
  [⟨"v1", "Cientista de Dados Pleno", "InovaTech",
    "Python, R, Machine Learning, Deep Learning, SQL, Spark",
    "Procuramos um Cientista de Dados para desenvolver modelos preditivos e analisar grandes volumes de dados. Necessário experiência com bibliotecas como Scikit-learn, TensorFlow ou PyTorch."⟩,
   ⟨"v2", "Desenvolvedor Frontend Júnior", "WebSoluções",
    "HTML, CSS, JavaScript, React, Git",
    "Vaga para Desenvolvedor Frontend para atuar na criação de interfaces de usuário interativas e modernas. Desejável conhecimento em algum framework JS como React ou Vue."⟩,
   ⟨"v3", "Engenheiro de DevOps Sênior", "CloudExperts",
    "AWS, Azure, Docker, Kubernetes, Terraform, CI/CD, Python",
    "Buscamos Engenheiro de DevOps experiente para automatizar infraestrutura e processos de deploy em ambiente de nuvem. Forte conhecimento em ferramentas de orquestração e IaC."⟩,
   ⟨"v4", "Desenvolvedor Python Backend", "CodeBuilders",
    "Python, Django, Flask, REST API, SQL, Docker",
    "Oportunidade para Desenvolvedor Python Backend para construir e manter APIs robustas e escaláveis. Experiência com frameworks web e bancos de dados é essencial."⟩]

/-! ## Module state, numeric backend, and the matcher -/

/-- One emitted match dictionary
`{id_vaga, titulo_vaga, empresa, similaridade}`. -/
structure MatchEntry (α : Type) where
  id_vaga : String
  titulo_vaga : String
  empresa : String
  similaridade : α
  deriving DecidableEq

/-- Return value of `encontrar_matches_para_trabalhador`: a list of match
dictionaries, or the error dictionary `{"erro": msg}`. -/
inductive MatchResult (α : Type) where
  | ok : List (MatchEntry α) → MatchResult α
  | erro : String → MatchResult α
  deriving DecidableEq

/-- The module-level mutable globals of `src/matching_logic.py`.  The
worker and job lists are included (they are read, never written); the
vectorizer's fitted state is modelled by the corpus it was fitted on. -/
structure MatcherState (α : Type) where
  trabalhadores : List Trabalhador
  vagas : List Vaga
  vectorizer : Option (List String)
  matriz_similaridade_global : Option (List (List α))
  tfidf_matrix_global : Option (List (List α))
  docs_trabalhadores_global : List String
  docs_vagas_global : List String
  deriving DecidableEq

/-- Abstract numeric backend standing for sklearn's
`TfidfVectorizer.fit_transform` (where `none` models the `ValueError`
raised e.g. on an empty vocabulary) and `cosine_similarity`.  Matrices
are lists of rows. -/
structure Backend (α : Type) where
  fitTransform : List String → Option (List (List α))
  cosineSim : List (List α) → List (List α) → List (List α)

/-- A small executable backend over `ℚ` (one-dimensional unit vectors,
dot-product similarity) used to exercise the model on concrete states. -/
def qBackend : Backend ℚ :=
  ⟨fun docs => some (docs.map fun _ => [1]),
   fun A B => A.map (fun a => B.map (fun b => (List.zipWith (· * ·) a b).sum))⟩

/-- The contract sklearn documents for `cosine_similarity(A, B)`:
`C` is a `len(A) × len(B)` matrix and `C[i][j]` equals
`dot(Aᵢ, Bⱼ) / (‖Aᵢ‖ · ‖Bⱼ‖)`, defined as 0 when either magnitude is
zero (`na`, `nb` witness the two magnitudes: the non-negative square
roots of the sums of squares). -/
def CosineOutput {α : Type} [LinearOrderedField α]
    (A B C : List (List α)) : Prop :=
  C.length = A.length ∧
  (∀ row ∈ C, row.length = B.length) ∧
  ∀ (i j : ℕ) (hi : i < C.length) (hj : j < (C.get ⟨i, hi⟩).length),
    ∃ (hia : i < A.length) (hjb : j < B.length) (na nb : α),
      0 ≤ na ∧ 0 ≤ nb ∧
      na ^ 2 = ((A.get ⟨i, hia⟩).map (· ^ 2)).sum ∧
      nb ^ 2 = ((B.get ⟨j, hjb⟩).map (· ^ 2)).sum ∧
      (C.get ⟨i, hi⟩).get ⟨j, hj⟩ =
        if na * nb = 0 then 0
        else (List.zipWith (· * ·) (A.get ⟨i, hia⟩) (B.get ⟨j, hjb⟩)).sum /
          (na * nb)

/-- `inicializar_matcher` from `src/matching_logic.py`: rebuild the
documents, and if both document lists are non-empty fit the vectorizer on
workers-then-jobs, split the combined TF-IDF matrix at
`len(docs_trabalhadores)` rows and cache the worker×job cosine-similarity
matrix.  A fit failure (`ValueError`) only resets the similarity matrix. -/
def inicializar_matcher {α : Type} (b : Backend α) (s : MatcherState α) :
    MatcherState α :=
  let docsT := s.trabalhadores.map (fun t => criar_documento t.toItem "trabalhador")
  let docsV := s.vagas.map (fun v => criar_documento v.toItem "vaga")
  if docsT.isEmpty || docsV.isEmpty then
    { s with docs_trabalhadores_global := docsT, docs_vagas_global := docsV }
  else
    let todos_docs := docsT ++ docsV
    match b.fitTransform todos_docs with
    | some tfidf =>
      let tfidf_trabalhadores := tfidf.take docsT.length
      let tfidf_vagas := tfidf.drop docsT.length
      { s with
        docs_trabalhadores_global := docsT
        docs_vagas_global := docsV
        vectorizer := some todos_docs
        tfidf_matrix_global := some tfidf
        matriz_similaridade_global :=
          some (b.cosineSim tfidf_trabalhadores tfidf_vagas) }
    | none =>
      { s with
        docs_trabalhadores_global := docsT
        docs_vagas_global := docsV
        matriz_similaridade_global := none }

/-- The ordering `sorted(enumerate(row), key=lambda item: item[1],
reverse=True)` realizes on the `(position, score)` pairs: strictly larger
score first, and original position order on equal scores.  Since the
positions produced by `enumerate` are pairwise distinct, Python's stable
descending sort returns the unique permutation sorted by this total
linear relation. -/
def lexRel {α : Type} [LinearOrder α] (p q : ℕ × α) : Prop :=
  q.2 < p.2 ∨ (p.2 = q.2 ∧ p.1 ≤ q.1)

instance {α : Type} [LinearOrder α] : DecidableRel (lexRel (α := α)) :=
  fun p q => by unfold lexRel; infer_instance

instance {α : Type} [LinearOrder α] : IsTotal (ℕ × α) lexRel :=
  ⟨by
    intro p q
    unfold lexRel
    rcases lt_trichotomy p.2 q.2 with h | h | h
    · exact Or.inr (Or.inl h)
    · rcases Nat.le_total p.1 q.1 with h1 | h1
      · exact Or.inl (Or.inr ⟨h, h1⟩)
      · exact Or.inr (Or.inr ⟨h.symm, h1⟩)
    · exact Or.inl (Or.inl h)⟩

instance {α : Type} [LinearOrder α] : IsTrans (ℕ × α) lexRel :=
  ⟨by
    intro p q r hpq hqr
    unfold lexRel at hpq hqr ⊢
    rcases hpq with h1 | ⟨h1, h1n⟩ <;> rcases hqr with h2 | ⟨h2, h2n⟩
    · exact Or.inl (h2.trans h1)
    · exact Or.inl (h2 ▸ h1)
    · exact Or.inl (h1 ▸ h2)
    · exact Or.inr ⟨h1.trans h2, h1n.trans h2n⟩⟩

instance {α : Type} [LinearOrder α] : IsAntisymm (ℕ × α) lexRel :=
  ⟨by
    intro p q hpq hqp
    unfold lexRel at hpq hqp
    rcases hpq with h1 | ⟨h1, h1n⟩ <;> rcases hqp with h2 | ⟨h2, h2n⟩
    · exact absurd (h1.trans h2) (lt_irrefl _)
    · exact absurd (h2 ▸ h1) (lt_irrefl _)
    · exact absurd (h1 ▸ h2) (lt_irrefl _)
    · exact Prod.ext (Nat.le_antisymm h1n h2n) h1⟩

/-- `sorted(enumerate(row), key=lambda item: item[1], reverse=True)`. -/
def matchesOrdenados {α : Type} [LinearOrder α] (row : List α) :
    List (ℕ × α) :=
  List.insertionSort lexRel row.enum

/-- Python's slice `l[:n]` for an arbitrary integer bound (a negative
bound counts from the end of the list). -/
def pyTake {β : Type} (n : ℤ) (l : List β) : List β :=
  if 0 ≤ n then l.take n.toNat else l.take (l.length - (-n).toNat)

/-- Round half to even, the rounding mode of Python's builtin `round`. -/
def roundHalfEven {α : Type} [LinearOrderedField α] [FloorRing α]
    (x : α) : ℤ :=
  if x - ⌊x⌋ < 1/2 then ⌊x⌋
  else if 1/2 < x - ⌊x⌋ then ⌊x⌋ + 1
  else if Even ⌊x⌋ then ⌊x⌋ else ⌊x⌋ + 1

/-- Python's `round(x, 4)` (idealized over a field; the binary floating
point representation error is not modelled). -/
def pyRound4 {α : Type} [LinearOrderedField α] [FloorRing α] (x : α) : α :=
  (roundHalfEven (x * 10000) : α) / 10000

/-- The result-building loop of `encontrar_matches_para_trabalhador`:
walk the selected `(position, score)` pairs in sorted order, `continue`
on non-positive scores (`np.isnan` never fires: field-valued cosine
scores are never NaN) and on positions outside the job list, and emit
the match dictionary with the score rounded to 4 decimal places. -/
def montarResultado {α : Type} [LinearOrderedField α] [FloorRing α]
    (vs : List Vaga) (pairs : List (ℕ × α)) : List (MatchEntry α) :=
  pairs.filterMap (fun p =>
    if p.2 ≤ (0 : α) then none
    else
      match vs.get? p.1 with
      | some vaga => some ⟨vaga.id, vaga.titulo, vaga.empresa, pyRound4 p.2⟩
      | none => none)

/-- The entry emitted for a retained `(position, score)` pair (total
version of the loop body, defined for in-bounds positions; the
out-of-bounds case never survives the position filter). -/
def emitEntry {α : Type} [LinearOrderedField α] [FloorRing α]
    (vs : List Vaga) (p : ℕ × α) : MatchEntry α :=
  match vs.get? p.1 with
  | some vaga => ⟨vaga.id, vaga.titulo, vaga.empresa, pyRound4 p.2⟩
  | none => ⟨"", "", "", pyRound4 p.2⟩

/-- The retention test of the result loop: positive score and a position
inside the job list. -/
def keepPair {α : Type} [LinearOrderedField α] (vs : List Vaga)
    (p : ℕ × α) : Bool :=
  decide ((0 : α) < p.2) && decide (p.1 < vs.length)

/-- `encontrar_matches_para_trabalhador` from `src/matching_logic.py`.
In addition to the Python return value and the updated module state, the
model reports how many times `inicializar_matcher` ran during the call.
The source's defensive re-checks that the cached matrix and the selected
row are numpy arrays are subsumed by the `Option` model (a cached matrix
is either absent or a well-formed list of rows, so the
`"Vetor de similaridade inválido."` branch is unreachable). -/
def encontrar_matches_para_trabalhador {α : Type} [LinearOrderedField α]
    [FloorRing α] (b : Backend α) (s : MatcherState α)
    (id_trabalhador : String) (top_n : ℤ) :
    MatchResult α × MatcherState α × ℕ :=
  let init := if (s.matriz_similaridade_global).isSome then (s, 0)
    else (inicializar_matcher b s, 1)
  let s1 := init.1
  match s1.matriz_similaridade_global with
  | none => (.erro "Falha ao inicializar a matriz de similaridade.", s1, init.2)
  | some M =>
    match s1.trabalhadores.findIdx? (fun t => t.id == id_trabalhador) with
    | none =>
      (.erro ("Trabalhador com ID '" ++ id_trabalhador ++ "' não encontrado."),
        s1, init.2)
    | some indice_trabalhador =>
      if h : M.length ≤ indice_trabalhador then
        (.erro "Índice do trabalhador fora dos limites da matriz.", s1, init.2)
      else
        let similaridades_vagas := M.get ⟨indice_trabalhador, by omega⟩
        (.ok (montarResultado s1.vagas
          (pyTake top_n (matchesOrdenados similaridades_vagas))), s1, init.2)

/-! ## The actual corpus and its TF-IDF statistics

`inicializar_matcher` feeds the worker documents followed by the job
documents into sklearn's `TfidfVectorizer` (all defaults: lowercase
input — already lower-cased here — token pattern `\b\w\w+\b`, raw term
counts, smoothed idf `ln((1+n)/(1+df)) + 1`, l2 normalization).  Cosine
similarity is invariant under the per-document l2 normalization, so the
cached matrix entries are cosine similarities of the raw `tf·idf`
vectors. -/

/-- sklearn's default tokenization of an already-normalized document:
the maximal word-character runs of length ≥ 2. -/
def tokensOf (d : String) : List (List Char) :=
  (words d.data).filter (fun w => 2 ≤ w.length)

/-- The worker documents, in worker-list order. -/
def docs_trabalhadores : List String :=
  trabalhadores.map (fun t => criar_documento t.toItem "trabalhador")

/-- The job documents, in job-list order. -/
def docs_vagas : List String :=
  vagas.map (fun v => criar_documento v.toItem "vaga")

/-- The fitted corpus: worker documents then job documents. -/
def corpusDocs : List String := docs_trabalhadores ++ docs_vagas

/-- Term frequency: number of occurrences of term `t` in document `d`. -/
def tf (d : String) (t : List Char) : ℕ := (tokensOf d).count t

/-- Document frequency of a term across the corpus. -/
def df (t : List Char) : ℕ :=
  (corpusDocs.filter (fun d => (tokensOf d).contains t)).length

/-- The vocabulary of the fitted corpus, as a finite set of terms. -/
def vocabFinset : Finset (List Char) :=
  ((corpusDocs.map tokensOf).flatten).toFinset

/-- `∑_t tf(d,t)²`, written as a sum over token positions. -/
def sumSqCounts (d : String) : ℕ :=
  ((tokensOf d).map (fun t => tf d t)).sum

/-- Every positive entry of the matrix exceeds the `round(·, 4)`
threshold `1/20000`, so rounding keeps it positive. -/
def EntriesGood {α : Type} [LinearOrderedField α] (M : List (List α)) : Prop :=
  ∀ row ∈ M, ∀ x ∈ row, 0 < x → 1/20000 < x

/-- Mathematical characterization of the similarity matrix the
initialized module caches for the actual sample data: a
`len(trabalhadores) × len(vagas)` matrix whose `(i, j)` entry is the
cosine similarity of the TF-IDF vectors of worker document `i` and job
document `j`, with sklearn's smoothed idf
`ln((1 + n)/(1 + df(t))) + 1` and raw counts as term frequencies
(`na`, `nb` are the two vector magnitudes; an entry with a zero
magnitude is 0). -/
def ActualSimMatrix (M : List (List ℝ)) : Prop :=
  M.length = docs_trabalhadores.length ∧
  (∀ row ∈ M, row.length = docs_vagas.length) ∧
  ∀ (i j : ℕ) (hi : i < M.length) (hj : j < (M.get ⟨i, hi⟩).length),
    ∃ na nb : ℝ, 0 ≤ na ∧ 0 ≤ nb ∧
      na ^ 2 = ∑ t ∈ vocabFinset,
        ((tf (docs_trabalhadores.getD i "") t : ℝ) *
          (Real.log ((1 + (corpusDocs.length : ℝ)) / (1 + (df t : ℝ))) + 1)) ^ 2 ∧
      nb ^ 2 = ∑ t ∈ vocabFinset,
        ((tf (docs_vagas.getD j "") t : ℝ) *
          (Real.log ((1 + (corpusDocs.length : ℝ)) / (1 + (df t : ℝ))) + 1)) ^ 2 ∧
      (M.get ⟨i, hi⟩).get ⟨j, hj⟩ =
        if na * nb = 0 then 0
        else (∑ t ∈ vocabFinset,
          ((tf (docs_trabalhadores.getD i "") t : ℝ) *
            (Real.log ((1 + (corpusDocs.length : ℝ)) / (1 + (df t : ℝ))) + 1)) *
          ((tf (docs_vagas.getD j "") t : ℝ) *
            (Real.log ((1 + (corpusDocs.length : ℝ)) / (1 + (df t : ℝ))) + 1))) /
          (na * nb)

example : preprocessar_texto (some "Python, ML!!  2023") = "python ml 2023" := by decide
example : specNormalize "Python, ML!!  2023" = "python ml 2023" := by decide
example : preprocessar_texto none = "" := by decide

/-! ## Lemmas about the character classes -/

lemma spaceChar_not_word {c : Char} (h : isSpaceChar c = true) :
    isWordChar c = false := by
  simp only [isSpaceChar, Bool.or_eq_true, decide_eq_true_eq] at h
  rcases h with ((((h | h) | h) | h) | h) | h <;> subst h <;> decide

lemma wordChar_not_space {c : Char} (h : isWordChar c = true) :
    isSpaceChar c = false := by
  cases hs : isSpaceChar c with
  | false => rfl
  | true => rw [spaceChar_not_word hs] at h; cases h

/-! ## Equations for `collapseAux` -/

lemma collapseAux_nil (p : Char → Bool) (b : Bool) : collapseAux p b [] = [] := rfl

lemma collapseAux_pos_true {p : Char → Bool} {c : Char} (h : p c = true)
    (cs : List Char) : collapseAux p true (c :: cs) = collapseAux p true cs := by
  simp [collapseAux, h]

lemma collapseAux_pos_false {p : Char → Bool} {c : Char} (h : p c = true)
    (cs : List Char) :
    collapseAux p false (c :: cs) = ' ' :: collapseAux p true cs := by
  simp [collapseAux, h]

lemma collapseAux_neg {p : Char → Bool} {c : Char} (h : p c = false)
    (b : Bool) (cs : List Char) :
    collapseAux p b (c :: cs) = c :: collapseAux p false cs := by
  simp [collapseAux, h]

/-- The second substitution `re.sub(r'\s+', ' ', ·)` is the identity on the
output of `re.sub(r'\W+', ' ', ·)`: the only whitespace the first
substitution leaves is single separating spaces. -/
lemma subS_subW (l : List Char) : ∀ b b' : Bool, (b' = true → b = true) →
    collapseAux isSpaceChar b' (collapseAux nonWord b l) =
      collapseAux nonWord b l := by
  induction l with
  | nil => intro b b' _; rfl
  | cons c cs ih =>
    intro b b' hbb
    cases hw : isWordChar c with
    | true =>
      have hnw : nonWord c = false := by simp [nonWord, hw]
      rw [collapseAux_neg hnw, collapseAux_neg (wordChar_not_space hw)]
      rw [ih false false (by simp)]
    | false =>
      have hnw : nonWord c = true := by simp [nonWord, hw]
      cases b with
      | true =>
        rw [collapseAux_pos_true hnw, ih true b' (fun _ => rfl)]
      | false =>
        have hb' : b' = false := by
          cases b' with
          | false => rfl
          | true => exact absurd (hbb rfl) (by simp)
        subst hb'
        rw [collapseAux_pos_false hnw, collapseAux_pos_false (by decide : isSpaceChar ' ' = true)]
        rw [ih true true (fun _ => rfl)]

/-- Left-stripping the output of `re.sub(r'\W+', ' ', ·)` equals running
the substitution with the in-run flag set. -/
lemma dropWhile_subW (l : List Char) : ∀ b : Bool,
    (collapseAux nonWord b l).dropWhile isSpaceChar = collapseAux nonWord true l := by
  induction l with
  | nil => intro b; rfl
  | cons c cs ih =>
    intro b
    cases hw : isWordChar c with
    | true =>
      have hnw : nonWord c = false := by simp [nonWord, hw]
      rw [collapseAux_neg hnw, collapseAux_neg hnw]
      rw [List.dropWhile_cons, wordChar_not_space hw]
      simp
    | false =>
      have hnw : nonWord c = true := by simp [nonWord, hw]
      cases b with
      | true => rw [collapseAux_pos_true hnw, ih true]
      | false =>
        rw [collapseAux_pos_false hnw, List.dropWhile_cons]
        simp only [show isSpaceChar ' ' = true from rfl, if_true]
        rw [ih true, collapseAux_pos_true hnw]

/-! ## Right strip -/

lemma stripChars_eq (l : List Char) :
    stripChars l = rstrip (l.dropWhile isSpaceChar) := rfl

lemma rstrip_nil : rstrip [] = [] := rfl

lemma rstrip_cons_nonspace {c : Char} (h : isSpaceChar c = false)
    (x : List Char) : rstrip (c :: x) = c :: rstrip x := by
  unfold rstrip
  rw [List.reverse_cons, List.dropWhile_append]
  split
  · next he =>
    simp only [List.isEmpty_iff] at he
    simp [List.dropWhile_cons, h, he]
  · rw [List.reverse_append]
    simp [List.dropWhile_cons, h]

lemma rstrip_cons_of_ne {x : List Char} (h : rstrip x ≠ []) (y : Char) :
    rstrip (y :: x) = y :: rstrip x := by
  unfold rstrip at h ⊢
  rw [List.reverse_cons, List.dropWhile_append]
  have hne : ¬(x.reverse.dropWhile isSpaceChar).isEmpty = true := by
    simp only [List.isEmpty_iff]
    intro hx
    rw [hx] at h
    exact h rfl
  rw [if_neg hne, List.reverse_append]
  rfl

lemma dropWhile_dropWhile (p : Char → Bool) (l : List Char) :
    (l.dropWhile p).dropWhile p = l.dropWhile p := by
  induction l with
  | nil => rfl
  | cons c cs ih =>
    rw [List.dropWhile_cons]
    split
    · exact ih
    · next h =>
      rw [List.dropWhile_cons, if_neg h]

lemma rstrip_idem (x : List Char) : rstrip (rstrip x) = rstrip x := by
  unfold rstrip
  rw [List.reverse_reverse, dropWhile_dropWhile]

/-! ## Equations and invariants for `words` -/

lemma words_cons_nonword {c : Char} (h : isWordChar c = false) (cs : List Char) :
    words (c :: cs) = words cs := by
  simp [words, h]

lemma words_singleton_word {c : Char} (h : isWordChar c = true) :
    words [c] = [[c]] := by
  simp [words, h]

lemma words_cons_word_nonword {c d : Char} (hc : isWordChar c = true)
    (hd : isWordChar d = false) (cs : List Char) :
    words (c :: d :: cs) = [c] :: words (d :: cs) := by
  simp [words, hc, hd]

lemma words_cons_word_word {c d : Char} (hc : isWordChar c = true)
    (hd : isWordChar d = true) {cs : List Char} {r : List Char}
    {rs : List (List Char)} (hw : words (d :: cs) = r :: rs) :
    words (c :: d :: cs) = (c :: r) :: rs := by
  conv_lhs => rw [words.eq_def]
  simp only [List.head?_cons, hc, hd, if_true]
  rw [hw]

lemma words_word_ne_nil {d : Char} (hd : isWordChar d = true)
    (cs : List Char) : ∃ r rs, words (d :: cs) = r :: rs := by
  cases cs with
  | nil => exact ⟨[d], [], words_singleton_word hd⟩
  | cons e es =>
    cases he : isWordChar e with
    | false => exact ⟨[d], words (e :: es), words_cons_word_nonword hd he es⟩
    | true =>
      obtain ⟨r, rs, hw⟩ := words_word_ne_nil he es
      exact ⟨d :: r, rs, words_cons_word_word hd he hw⟩

lemma words_mem_ne_nil : ∀ (l : List Char), ∀ w ∈ words l, w ≠ [] := by
  intro l
  induction l with
  | nil => intro w hw; cases hw
  | cons c cs ih =>
    intro w hw
    cases hc : isWordChar c with
    | false =>
      rw [words_cons_nonword hc] at hw
      exact ih w hw
    | true =>
      cases cs with
      | nil =>
        rw [words_singleton_word hc] at hw
        rcases List.mem_cons.mp hw with h | h
        · subst h; simp
        · cases h
      | cons d cs' =>
        cases hd : isWordChar d with
        | false =>
          rw [words_cons_word_nonword hc hd] at hw
          rcases List.mem_cons.mp hw with h | h
          · subst h; simp
          · exact ih w h
        | true =>
          obtain ⟨r, rs, hwds⟩ := words_word_ne_nil hd cs'
          rw [words_cons_word_word hc hd hwds] at hw
          rcases List.mem_cons.mp hw with h | h
          · subst h; simp
          · exact ih w (by rw [hwds]; exact List.mem_cons_of_mem _ h)

lemma words_chars {l : List Char} : ∀ w ∈ words l, ∀ c ∈ w,
    isWordChar c = true ∧ c ∈ l := by
  induction l with
  | nil => intro w hw; cases hw
  | cons a cs ih =>
    intro w hw c hc
    cases ha : isWordChar a with
    | false =>
      rw [words_cons_nonword ha] at hw
      obtain ⟨h1, h2⟩ := ih w hw c hc
      exact ⟨h1, List.mem_cons_of_mem _ h2⟩
    | true =>
      cases cs with
      | nil =>
        rw [words_singleton_word ha] at hw
        rcases List.mem_cons.mp hw with h | h
        · subst h
          rcases List.mem_cons.mp hc with h | h
          · subst h; exact ⟨ha, List.mem_cons_self _ _⟩
          · cases h
        · cases h
      | cons d cs' =>
        cases hd : isWordChar d with
        | false =>
          rw [words_cons_word_nonword ha hd] at hw
          rcases List.mem_cons.mp hw with h | h
          · subst h
            rcases List.mem_cons.mp hc with h | h
            · subst h; exact ⟨ha, List.mem_cons_self _ _⟩
            · cases h
          · obtain ⟨h1, h2⟩ := ih w h c hc
            exact ⟨h1, List.mem_cons_of_mem _ h2⟩
        | true =>
          obtain ⟨r, rs, hwds⟩ := words_word_ne_nil hd cs'
          rw [words_cons_word_word ha hd hwds] at hw
          rcases List.mem_cons.mp hw with h | h
          · subst h
            rcases List.mem_cons.mp hc with h | h
            · subst h; exact ⟨ha, List.mem_cons_self _ _⟩
            · obtain ⟨h1, h2⟩ := ih r (by rw [hwds]; exact List.mem_cons_self _ _) c h
              exact ⟨h1, List.mem_cons_of_mem _ h2⟩
          · obtain ⟨h1, h2⟩ := ih w (by rw [hwds]; exact List.mem_cons_of_mem _ h) c hc
            exact ⟨h1, List.mem_cons_of_mem _ h2⟩

/-- If a list has no maximal word run at all, the in-run collapse of its
non-word characters produces nothing. -/
lemma collapseAux_true_of_words_nil : ∀ (l : List Char), words l = [] →
    collapseAux nonWord true l = [] := by
  intro l
  induction l with
  | nil => intro _; rfl
  | cons c cs ih =>
    intro h
    cases hc : isWordChar c with
    | true =>
      obtain ⟨r, rs, hw⟩ := words_word_ne_nil hc cs
      rw [hw] at h
      cases h
    | false =>
      rw [words_cons_nonword hc] at h
      have hnw : nonWord c = true := by simp [nonWord, hc]
      rw [collapseAux_pos_true hnw, ih h]

/-! ## The normalizer equals the joined-words formulation -/

lemma intercalate_nil_words : List.intercalate [' '] ([] : List (List Char)) = [] := by
  simp [List.intercalate]

lemma intercalate_one (w : List Char) : List.intercalate [' '] [w] = w := by
  simp [List.intercalate]

lemma intercalate_two (w v : List Char) (vs : List (List Char)) :
    List.intercalate [' '] (w :: v :: vs) =
      w ++ ' ' :: List.intercalate [' '] (v :: vs) := by
  simp [List.intercalate, List.intersperse]

lemma intercalate_words_ne_nil {l : List Char} {w : List Char}
    {ws : List (List Char)} (hw : w ∈ words l) :
    ∀ vs, w :: vs = ws → List.intercalate [' '] ws ≠ [] := by
  intro vs hvs
  subst hvs
  have hne := words_mem_ne_nil l w hw
  cases vs with
  | nil =>
    rw [intercalate_one]
    exact hne
  | cons v vs' =>
    rw [intercalate_two]
    intro h
    exact hne (List.append_eq_nil.mp h).1

/-- Right-stripping the in-run collapse of a list's non-word runs yields
exactly its maximal word runs joined by single spaces. -/
lemma rstrip_collapse_eq_join :
    ∀ (n : ℕ) (l : List Char), l.length ≤ n →
      rstrip (collapseAux nonWord true l) = List.intercalate [' '] (words l) := by
  intro n
  induction n with
  | zero =>
    intro l hl
    rw [List.length_eq_zero.mp (Nat.le_zero.mp hl)]
    rfl
  | succ n ih =>
    intro l hl
    cases l with
    | nil => rfl
    | cons c cs =>
      cases hc : isWordChar c with
      | false =>
        have hnw : nonWord c = true := by simp [nonWord, hc]
        rw [collapseAux_pos_true hnw, words_cons_nonword hc]
        exact ih cs (by simpa using Nat.le_of_succ_le_succ hl)
      | true =>
        have hnw : nonWord c = false := by simp [nonWord, hc]
        rw [collapseAux_neg hnw]
        cases cs with
        | nil =>
          rw [words_singleton_word hc, intercalate_one, collapseAux_nil,
            rstrip_cons_nonspace (wordChar_not_space hc), rstrip_nil]
        | cons d cs' =>
          cases hd : isWordChar d with
          | true =>
            have hnd : nonWord d = false := by simp [nonWord, hd]
            obtain ⟨r, rs, hwds⟩ := words_word_ne_nil hd cs'
            rw [words_cons_word_word hc hd hwds]
            have hTrueFalse : collapseAux nonWord false (d :: cs') =
                collapseAux nonWord true (d :: cs') := by
              rw [collapseAux_neg hnd, collapseAux_neg hnd]
            rw [hTrueFalse, rstrip_cons_nonspace (wordChar_not_space hc)]
            rw [ih (d :: cs') (by simpa using Nat.le_of_succ_le_succ hl), hwds]
            cases rs with
            | nil => rw [intercalate_one, intercalate_one]
            | cons v vs =>
              rw [intercalate_two, intercalate_two]
              rfl
          | false =>
            have hnd : nonWord d = true := by simp [nonWord, hd]
            rw [collapseAux_pos_false hnd,
              rstrip_cons_nonspace (wordChar_not_space hc),
              words_cons_word_nonword hc hd, words_cons_nonword hd]
            have hlen : cs'.length ≤ n := by
              simp only [List.length_cons] at hl
              omega
            cases hws : words cs' with
            | nil =>
              rw [collapseAux_true_of_words_nil cs' hws, intercalate_one]
              rfl
            | cons w ws =>
              have hrst : rstrip (collapseAux nonWord true cs') =
                  List.intercalate [' '] (words cs') := ih cs' hlen
              have hne : rstrip (collapseAux nonWord true cs') ≠ [] := by
                rw [hrst]
                exact intercalate_words_ne_nil
                  (by rw [hws]; exact List.mem_cons_self _ _) ws (by rw [hws])
              rw [rstrip_cons_of_ne hne, hrst, hws, intercalate_two]
              rfl

/-- The source normalizer coincides with the specification's description:
lower-case the text and join its maximal word-character runs with single
spaces. -/
lemma preprocessar_eq_specNormalize (s : String) :
    preprocessar_texto (some s) = specNormalize s := by
  show String.mk (stripChars (collapseAux isSpaceChar false
      (collapseAux nonWord false (s.data.map pyLower)))) =
    String.mk (List.intercalate [' '] (words (s.data.map pyLower)))
  congr 1
  rw [subS_subW _ false false (by simp), stripChars_eq, dropWhile_subW]
  exact rstrip_collapse_eq_join (s.data.map pyLower).length _ le_rfl

/-! ## Idempotence of the normalizer -/

lemma pyLower_cases (c : Char) :
    pyLower c ∈ ['a', 'b', 'c', 'd', 'e', 'f', 'g', 'h', 'i', 'j', 'k', 'l',
      'm', 'n', 'o', 'p', 'q', 'r', 's', 't', 'u', 'v', 'w', 'x', 'y', 'z']
      ∨ pyLower c = c := by
  unfold pyLower
  split
  all_goals first
    | (left; decide)
    | (right; rfl)

lemma pyLower_idem (c : Char) : pyLower (pyLower c) = pyLower c := by
  rcases pyLower_cases c with h | h
  · simp only [List.mem_cons, List.not_mem_nil, or_false] at h
    rcases h with h | h | h | h | h | h | h | h | h | h | h | h | h | h | h |
      h | h | h | h | h | h | h | h | h | h | h <;> rw [h] <;> decide
  · rw [h]
    exact h

lemma pyLower_space : pyLower ' ' = ' ' := rfl

lemma pyLower_wordChar (c : Char) : isWordChar (pyLower c) = isWordChar c := by
  unfold pyLower
  split
  all_goals rfl

/-- Joining maximal word runs with single spaces and re-extracting the
maximal word runs gives the runs back. -/
lemma words_append_run : ∀ (w rest : List Char), w ≠ [] →
    (∀ c ∈ w, isWordChar c = true) →
    (rest = [] ∨ ∃ d rs, rest = d :: rs ∧ isWordChar d = false) →
    words (w ++ rest) = w :: words rest := by
  intro w
  induction w with
  | nil => intro rest h; exact absurd rfl h
  | cons a w' ih =>
    intro rest _ hall hrest
    have ha : isWordChar a = true := hall a (List.mem_cons_self _ _)
    cases w' with
    | nil =>
      rcases hrest with h | ⟨d, rs, hr, hd⟩
      · subst h
        rw [List.append_nil, words_singleton_word ha]
        rfl
      · subst hr
        rw [List.singleton_append]
        exact words_cons_word_nonword ha hd rs
    | cons b w'' =>
      have hb : isWordChar b = true := hall b (by simp)
      have hrec : words ((b :: w'') ++ rest) = (b :: w'') :: words rest :=
        ih rest (by simp) (fun c hc => hall c (List.mem_cons_of_mem _ hc)) hrest
      show words (a :: ((b :: w'') ++ rest)) = (a :: b :: w'') :: words rest
      rw [List.cons_append]
      exact words_cons_word_word ha hb hrec

lemma words_intercalate : ∀ (ws : List (List Char)),
    (∀ w ∈ ws, w ≠ [] ∧ ∀ c ∈ w, isWordChar c = true) →
    words (List.intercalate [' '] ws) = ws := by
  intro ws
  induction ws with
  | nil => intro _; rw [intercalate_nil_words]; rfl
  | cons w vs ih =>
    intro h
    obtain ⟨hne, hall⟩ := h w (List.mem_cons_self _ _)
    cases vs with
    | nil =>
      rw [intercalate_one]
      have := words_append_run w [] hne hall (Or.inl rfl)
      rw [List.append_nil] at this
      rw [this]
      rfl
    | cons v vs' =>
      rw [intercalate_two,
        words_append_run w (' ' :: List.intercalate [' '] (v :: vs')) hne hall
          (Or.inr ⟨' ', _, rfl, by decide⟩),
        words_cons_nonword (by decide : isWordChar ' ' = false)]
      rw [ih (fun u hu => h u (List.mem_cons_of_mem _ hu))]

lemma mem_intercalate_words {c : Char} {ws : List (List Char)}
    (h : c ∈ List.intercalate [' '] ws) : (∃ w ∈ ws, c ∈ w) ∨ c = ' ' := by
  induction ws with
  | nil => rw [intercalate_nil_words] at h; cases h
  | cons w vs ih =>
    cases vs with
    | nil =>
      rw [intercalate_one] at h
      exact Or.inl ⟨w, List.mem_cons_self _ _, h⟩
    | cons v vs' =>
      rw [intercalate_two] at h
      rcases List.mem_append.mp h with h1 | h1
      · exact Or.inl ⟨w, List.mem_cons_self _ _, h1⟩
      · rcases List.mem_cons.mp h1 with h2 | h2
        · exact Or.inr h2
        · rcases ih h2 with ⟨u, hu, hc⟩ | h3
          · exact Or.inl ⟨u, List.mem_cons_of_mem _ hu, hc⟩
          · exact Or.inr h3

lemma map_fix {x : List Char} (h : ∀ c ∈ x, pyLower c = c) :
    x.map pyLower = x := by
  induction x with
  | nil => rfl
  | cons a y ih =>
    rw [List.map_cons, h a (List.mem_cons_self _ _),
      ih (fun c hc => h c (List.mem_cons_of_mem _ hc))]

/-- `specNormalize` is idempotent. -/
lemma specNormalize_idem (s : String) :
    specNormalize (specNormalize s) = specNormalize s := by
  unfold specNormalize
  congr 1
  have hdata : (String.mk (List.intercalate [' ']
      (words (s.data.map pyLower)))).data =
      List.intercalate [' '] (words (s.data.map pyLower)) := rfl
  rw [hdata]
  have hfix : (List.intercalate [' '] (words (s.data.map pyLower))).map pyLower =
      List.intercalate [' '] (words (s.data.map pyLower)) := by
    apply map_fix
    intro c hc
    rcases mem_intercalate_words hc with ⟨w, hw, hcw⟩ | hsp
    · obtain ⟨_, hmem⟩ := words_chars w hw c hcw
      obtain ⟨c0, _, hc0⟩ := List.mem_map.mp hmem
      rw [← hc0]
      exact pyLower_idem c0
    · subst hsp
      rfl
  rw [hfix]
  rw [words_intercalate (words (s.data.map pyLower)) (fun w hw =>
    ⟨words_mem_ne_nil _ w hw, fun c hc => (words_chars w hw c hc).1⟩)]

/-! ## Facts about normalized strings, for the document builder -/

lemma stringMk_data (s : String) : String.mk s.data = s := by
  rcases s with ⟨l⟩
  rfl

lemma dropWhile_intercalate_words (m : List Char) :
    (List.intercalate [' '] (words m)).dropWhile isSpaceChar =
      List.intercalate [' '] (words m) := by
  cases hws : words m with
  | nil => rw [intercalate_nil_words]; rfl
  | cons w ws =>
    have hne : w ≠ [] := words_mem_ne_nil m w (by rw [hws]; exact List.mem_cons_self _ _)
    have hw : ∀ c ∈ w, isWordChar c = true := fun c hc =>
      (words_chars w (by rw [hws]; exact List.mem_cons_self _ _) c hc).1
    cases w with
    | nil => exact absurd rfl hne
    | cons a w' =>
      have ha : isSpaceChar a = false :=
        wordChar_not_space (hw a (List.mem_cons_self _ _))
      cases ws with
      | nil => rw [intercalate_one, List.dropWhile_cons, ha]; simp
      | cons v vs =>
        rw [intercalate_two, List.cons_append, List.dropWhile_cons, ha]
        simp

lemma rstrip_intercalate_words (m : List Char) :
    rstrip (List.intercalate [' '] (words m)) =
      List.intercalate [' '] (words m) := by
  have h := rstrip_collapse_eq_join m.length m le_rfl
  calc rstrip (List.intercalate [' '] (words m))
      = rstrip (rstrip (collapseAux nonWord true m)) := by rw [h]
    _ = rstrip (collapseAux nonWord true m) := rstrip_idem _
    _ = List.intercalate [' '] (words m) := h

/-- The output of the normalizer is strip-invariant: it carries no
leading or trailing whitespace. -/
lemma stripChars_specNormalize (s : String) :
    stripChars (specNormalize s).data = (specNormalize s).data := by
  show stripChars (List.intercalate [' '] (words (s.data.map pyLower))) = _
  rw [stripChars_eq, dropWhile_intercalate_words, rstrip_intercalate_words]
  rfl

/-! ## Claim C5 — the text normalizer's contract -/

/-- C5.  The text normalizer returns `""` on every non-string input; on a
string it returns the lower-cased text with every maximal run of
non-word characters replaced by a single space, whitespace collapsed and
the ends trimmed — equivalently (and this is the form proved here), the
maximal word-character runs of the lower-cased input joined by single
spaces (`specNormalize`).  In particular
`normalize("Python, ML!!  2023") = "python ml 2023"` and
`normalize(None) = ""`. -/
theorem preprocessar_texto_contract :
    (∀ s : String, preprocessar_texto (some s) = specNormalize s) ∧
    preprocessar_texto none = "" ∧
    preprocessar_texto (some "Python, ML!!  2023") = "python ml 2023" := by
  refine ⟨preprocessar_eq_specNormalize, rfl, by decide⟩

/-! ## Claim C6 — idempotence of the normalizer -/

/-- C6.  The text normalizer is idempotent:
`normalize(normalize(x)) = normalize(x)` for every input `x` (string or
non-string). -/
theorem preprocessar_texto_idem :
    ∀ x : Option String,
      preprocessar_texto (some (preprocessar_texto x)) = preprocessar_texto x := by
  intro x
  cases x with
  | none => decide
  | some s =>
    rw [preprocessar_eq_specNormalize, preprocessar_eq_specNormalize]
    exact specNormalize_idem s

/-! ## Claim C7 — the document builder -/

/-- C7.  For every worker record whose skills field normalizes to the
empty string and whose experience field normalizes to a non-empty
string, `criar_documento` returns exactly the normalized experience
text, which carries no leading or trailing whitespace; and for every
unrecognized kind it returns `""`. -/
theorem criar_documento_contract :
    (∀ item : Item,
      preprocessar_texto (some (item.habilidades.getD "")) = "" →
      preprocessar_texto (some (item.experiencia.getD "")) ≠ "" →
      criar_documento item "trabalhador" =
          preprocessar_texto (some (item.experiencia.getD "")) ∧
        stripChars (criar_documento item "trabalhador").data =
          (criar_documento item "trabalhador").data) ∧
    ∀ (item : Item) (tipo : String), tipo ≠ "trabalhador" → tipo ≠ "vaga" →
      criar_documento item tipo = "" := by
  constructor
  · intro item hskills _
    have hmain : criar_documento item "trabalhador" =
        preprocessar_texto (some (item.experiencia.getD "")) := by
      unfold criar_documento
      rw [if_pos rfl, hskills]
      rw [preprocessar_eq_specNormalize (item.experiencia.getD "")]
      show String.mk (stripChars ((("" : String) ++ " " ++
          specNormalize (item.experiencia.getD "")).data)) =
        specNormalize (item.experiencia.getD "")
      have hdata : (("" : String) ++ " " ++
          specNormalize (item.experiencia.getD "")).data =
          ' ' :: (specNormalize (item.experiencia.getD "")).data := by
        rw [String.data_append, String.data_append]
        rfl
      rw [hdata]
      have hdrop : (' ' :: (specNormalize (item.experiencia.getD "")).data).dropWhile
          isSpaceChar = (specNormalize (item.experiencia.getD "")).data.dropWhile
          isSpaceChar := by
        rw [List.dropWhile_cons, if_pos (show isSpaceChar ' ' = true from rfl)]
      rw [stripChars_eq, hdrop]
      show String.mk (rstrip ((specNormalize _).data.dropWhile isSpaceChar)) = _
      rw [← stripChars_eq, stripChars_specNormalize, stringMk_data]
    refine ⟨hmain, ?_⟩
    rw [hmain, preprocessar_eq_specNormalize]
    exact stripChars_specNormalize _
  · intro item tipo h1 h2
    unfold criar_documento
    rw [if_neg h1, if_neg h2]

/-- Witness for C7 at a concrete worker record with symbol-only skills
and non-empty experience, and at a concrete unrecognized kind. -/
theorem criar_documento_contract_witness :
    criar_documento ⟨some "!!!", some "Dev Python", none, none⟩ "trabalhador"
        = "dev python" ∧
      criar_documento ⟨some "!!!", some "Dev Python", none, none⟩ "outro" = "" := by
  constructor
  · have h := (criar_documento_contract.1
      ⟨some "!!!", some "Dev Python", none, none⟩ (by decide) (by decide)).1
    rw [h]
    decide
  · exact criar_documento_contract.2 _ "outro" (by decide) (by decide)

/-! ## Lemmas about the ranking pipeline -/

section Ranker

variable {α : Type} [LinearOrderedField α] [FloorRing α]

lemma lexRel_snd_le {p q : ℕ × α} (h : lexRel p q) : q.2 ≤ p.2 := by
  rcases h with h | ⟨h, _⟩
  · exact le_of_lt h
  · exact le_of_eq h.symm

lemma matchesOrdenados_sorted (row : List α) :
    (matchesOrdenados row).Sorted lexRel :=
  List.sorted_insertionSort lexRel row.enum

lemma matchesOrdenados_perm (row : List α) :
    (matchesOrdenados row).Perm row.enum :=
  List.perm_insertionSort lexRel row.enum

lemma pyTake_sublist {β : Type} (n : ℤ) (l : List β) :
    (pyTake n l).Sublist l := by
  unfold pyTake
  split <;> exact List.take_sublist _ _

lemma pyTake_nonneg_eq {β : Type} {n : ℤ} (hn : 0 ≤ n) (l : List β) :
    pyTake n l = l.take n.toNat := by
  unfold pyTake
  rw [if_pos hn]

lemma pyTake_length_le {β : Type} {n : ℤ} (hn : 0 ≤ n) (l : List β) :
    ((pyTake n l).length : ℤ) ≤ n := by
  rw [pyTake_nonneg_eq hn, List.length_take]
  have h1 : n.toNat ⊓ l.length ≤ n.toNat := Nat.min_le_left _ _
  omega

/-- The result loop is a filter of the retained pairs followed by the
emission map. -/
lemma montarResultado_eq (vs : List Vaga) (pairs : List (ℕ × α)) :
    montarResultado vs pairs = (pairs.filter (keepPair vs)).map (emitEntry vs) := by
  induction pairs with
  | nil => rfl
  | cons p ps ih =>
    unfold montarResultado at ih ⊢
    rw [List.filterMap_cons, List.filter_cons]
    by_cases h1 : p.2 ≤ (0 : α)
    · have hk : keepPair vs p = false := by
        unfold keepPair
        simp [not_lt.mpr h1]
      rw [if_pos h1, hk]
      simpa using ih
    · rw [if_neg h1]
      cases hv : vs.get? p.1 with
      | some vaga =>
        have hlt : p.1 < vs.length := by
          rcases List.get?_eq_some.mp hv with ⟨h, _⟩
          exact h
        have hk : keepPair vs p = true := by
          unfold keepPair
          simp [not_lt.mp (fun hc => h1 (le_of_lt hc)), hlt, lt_of_not_le h1]
        rw [hk]
        simp only [if_true]
        rw [List.map_cons, ih]
        have he : emitEntry vs p = ⟨vaga.id, vaga.titulo, vaga.empresa, pyRound4 p.2⟩ := by
          unfold emitEntry
          rw [hv]
        rw [he]
      | none =>
        have hge : vs.length ≤ p.1 := List.get?_eq_none.mp hv
        have hk : keepPair vs p = false := by
          unfold keepPair
          simp [not_lt.mpr hge]
        rw [hk]
        simpa using ih

/-- In a `lexRel`-sorted list, truncating then keeping the positive
scores equals keeping the positive scores then truncating: the sort
places every positive score before every non-positive one. -/
lemma filter_take_comm :
    ∀ (L : List (ℕ × α)), L.Sorted lexRel → ∀ n : ℕ,
      (L.take n).filter (fun p => decide ((0 : α) < p.2)) =
        (L.filter (fun p => decide ((0 : α) < p.2))).take n := by
  intro L
  induction L with
  | nil => intro _ n; simp
  | cons p ps ih =>
    intro hs n
    have hs' : ps.Sorted lexRel := hs.of_cons
    cases n with
    | zero => simp
    | succ m =>
      rw [List.take_succ_cons]
      by_cases hp : (0 : α) < p.2
      · rw [List.filter_cons, List.filter_cons,
          if_pos (by simpa using hp), if_pos (by simpa using hp),
          List.take_succ_cons, ih hs' m]
      · have hall : ∀ q ∈ ps, ¬(0 : α) < q.2 := by
          intro q hq
          have hr := (List.sorted_cons.mp hs).1 q hq
          exact not_lt.mpr ((lexRel_snd_le hr).trans (not_lt.mp hp))
        have hfil : ps.filter (fun q => decide ((0 : α) < q.2)) = [] :=
          List.filter_eq_nil_iff.mpr (by intro q hq; simpa using hall q hq)
        have hfil2 : (ps.take m).filter (fun q => decide ((0 : α) < q.2)) = [] :=
          List.filter_eq_nil_iff.mpr
            (by intro q hq; simpa using hall q (List.mem_of_mem_take hq))
        rw [List.filter_cons, List.filter_cons,
          if_neg (by simpa using hp), if_neg (by simpa using hp),
          hfil, hfil2]
        simp

lemma length_filter_enumFrom (row : List α) :
    ∀ k : ℕ, ((List.enumFrom k row).filter
        (fun p => decide ((0 : α) < p.2))).length =
      (row.filter (fun x => decide ((0 : α) < x))).length := by
  induction row with
  | nil => intro k; rfl
  | cons x xs ih =>
    intro k
    rw [List.enumFrom_cons, List.filter_cons, List.filter_cons]
    by_cases h : (0 : α) < x
    · rw [if_pos (by simpa using h), if_pos (by simpa using h),
        List.length_cons, List.length_cons, ih]
    · rw [if_neg (by simpa using h), if_neg (by simpa using h), ih]

lemma snd_mem_of_mem_enumFrom {β : Type} :
    ∀ (l : List β) (k : ℕ) (p : ℕ × β), p ∈ List.enumFrom k l → p.2 ∈ l := by
  intro l
  induction l with
  | nil => intro k p hp; cases hp
  | cons x xs ih =>
    intro k p hp
    rw [List.enumFrom_cons] at hp
    rcases List.mem_cons.mp hp with h | h
    · rw [h]
      exact List.mem_cons_self _ _
    · exact List.mem_cons_of_mem _ (ih (k + 1) p h)

lemma roundHalfEven_bounds (x : α) :
    ⌊x⌋ ≤ roundHalfEven x ∧ roundHalfEven x ≤ ⌊x⌋ + 1 := by
  unfold roundHalfEven
  split_ifs <;> omega

lemma roundHalfEven_mono {x y : α} (h : x ≤ y) :
    roundHalfEven x ≤ roundHalfEven y := by
  rcases lt_or_eq_of_le (Int.floor_le_floor h) with hf | hf
  · have h1 := (roundHalfEven_bounds x).2
    have h2 := (roundHalfEven_bounds y).1
    omega
  · unfold roundHalfEven
    rw [hf]
    have hxy : x - (⌊y⌋ : α) ≤ y - (⌊y⌋ : α) := by linarith
    split_ifs <;> first | omega | (exfalso; linarith)

lemma pyRound4_mono {x y : α} (h : x ≤ y) : pyRound4 x ≤ pyRound4 y := by
  unfold pyRound4
  rw [div_le_div_iff_of_pos_right (by norm_num : (0 : α) < 10000)]
  have hm : x * 10000 ≤ y * 10000 :=
    mul_le_mul_of_nonneg_right h (by norm_num)
  exact_mod_cast roundHalfEven_mono hm

/-- A value above `1/20000` still rounds to a positive multiple of
`1/10000` under `round(·, 4)`. -/
lemma pyRound4_pos {x : α} (h : 1 / 20000 < x) : 0 < pyRound4 x := by
  unfold pyRound4
  apply div_pos ?_ (by norm_num)
  have h1 : (1 : α) / 2 < x * 10000 := by linarith
  have h2 : (1 : ℤ) ≤ roundHalfEven (x * 10000) := by
    have hb := (roundHalfEven_bounds (x * 10000)).1
    rcases lt_or_le 0 ⌊x * 10000⌋ with hf | hf
    · omega
    · have hf0 : ⌊x * 10000⌋ = 0 :=
        le_antisymm hf (Int.floor_nonneg.mpr (by linarith))
      unfold roundHalfEven
      rw [hf0]
      split_ifs with hc1 hc2
      · exfalso
        push_cast at hc1
        linarith
      · omega
      · exfalso
        push_cast at hc2
        linarith
      · exfalso
        push_cast at hc2
        linarith
  have h3 : (1 : α) ≤ (roundHalfEven (x * 10000) : α) := by exact_mod_cast h2
  linarith

/-! ## Claim C10 — queries on a warm cache are read-only -/

/-- C10.  When the cached similarity matrix is a valid array at the start
of the call, `encontrar_matches_para_trabalhador` leaves the whole module
state (worker list, job list, vectorizer, TF-IDF cache, similarity
cache) unchanged and performs no re-initialization, for every worker id
and `top_n`. -/
theorem encontrar_matches_frame (b : Backend α) (s : MatcherState α)
    (M : List (List α)) (idt : String) (n : ℤ)
    (hM : s.matriz_similaridade_global = some M) :
    (encontrar_matches_para_trabalhador b s idt n).2.1 = s ∧
    (encontrar_matches_para_trabalhador b s idt n).2.2 = 0 := by
  unfold encontrar_matches_para_trabalhador
  simp only [hM, Option.isSome_some, if_true]
  cases hI : s.trabalhadores.findIdx? (fun t => t.id == idt) with
  | none => exact ⟨rfl, rfl⟩
  | some i =>
    simp only []
    by_cases h : M.length ≤ i
    · rw [dif_pos h]
      exact ⟨rfl, rfl⟩
    · rw [dif_neg h]
      exact ⟨rfl, rfl⟩

/-- Witness for C10 at a concrete cached state over `ℚ`. -/
theorem encontrar_matches_frame_witness :
    (encontrar_matches_para_trabalhador qBackend
        ⟨trabalhadores, vagas, none, some [[1/2]], none, [], []⟩ "t1" 3).2.1 =
      ⟨trabalhadores, vagas, none, some [[1/2]], none, [], []⟩ ∧
    (encontrar_matches_para_trabalhador qBackend
        ⟨trabalhadores, vagas, none, some [[1/2]], none, [], []⟩ "t1" 3).2.2 = 0 :=
  encontrar_matches_frame qBackend _ [[1/2]] "t1" 3 rfl

/-! ## Claim C9 — totality of the matcher -/

/-- C9.  `encontrar_matches_para_trabalhador` is total: for every worker
id, `top_n`, state and backend it returns either a (possibly empty) list
of matches or one of the structured error dictionaries, never an uncaught
exception (totality is by construction of the model; the theorem
enumerates the possible structured outcomes). -/
theorem encontrar_matches_total (b : Backend α) (s : MatcherState α)
    (idt : String) (n : ℤ) :
    (∃ l, (encontrar_matches_para_trabalhador b s idt n).1 = .ok l) ∨
    (encontrar_matches_para_trabalhador b s idt n).1 =
      .erro "Falha ao inicializar a matriz de similaridade." ∨
    (encontrar_matches_para_trabalhador b s idt n).1 =
      .erro ("Trabalhador com ID '" ++ idt ++ "' não encontrado.") ∨
    (encontrar_matches_para_trabalhador b s idt n).1 =
      .erro "Índice do trabalhador fora dos limites da matriz." := by
  unfold encontrar_matches_para_trabalhador
  rcases hM : s.matriz_similaridade_global with _ | M
  · simp only [hM, Option.isSome_none, Bool.false_eq_true, if_false]
    cases hM2 : (inicializar_matcher b s).matriz_similaridade_global with
    | none => exact Or.inr (Or.inl rfl)
    | some M2 =>
      cases hI : (inicializar_matcher b s).trabalhadores.findIdx?
          (fun t => t.id == idt) with
      | none => exact Or.inr (Or.inr (Or.inl rfl))
      | some i =>
        simp only []
        by_cases h : M2.length ≤ i
        · rw [dif_pos h]
          exact Or.inr (Or.inr (Or.inr rfl))
        · rw [dif_neg h]
          exact Or.inl ⟨_, rfl⟩
  · simp only [hM, Option.isSome_some, if_true]
    cases hI : s.trabalhadores.findIdx? (fun t => t.id == idt) with
    | none => exact Or.inr (Or.inr (Or.inl rfl))
    | some i =>
      simp only []
      by_cases h : M.length ≤ i
      · rw [dif_pos h]
        exact Or.inr (Or.inr (Or.inr rfl))
      · rw [dif_neg h]
        exact Or.inl ⟨_, rfl⟩

/-! ## Claim C3 — one re-initialization on a cold or broken cache -/

/-- C3.  When the cached similarity matrix is absent at the start of the
call, exactly one re-initialization (a full run of
`inicializar_matcher`) is attempted; if the matrix is still absent
afterwards, the call returns the structured initialization-failure
dictionary instead of raising. -/
theorem encontrar_matches_reinit (b : Backend α) (s : MatcherState α)
    (idt : String) (n : ℤ)
    (h : s.matriz_similaridade_global = none) :
    (encontrar_matches_para_trabalhador b s idt n).2.2 = 1 ∧
    ((inicializar_matcher b s).matriz_similaridade_global = none →
      (encontrar_matches_para_trabalhador b s idt n).1 =
        .erro "Falha ao inicializar a matriz de similaridade.") := by
  unfold encontrar_matches_para_trabalhador
  simp only [h, Option.isSome_none, Bool.false_eq_true, if_false]
  constructor
  · cases hM2 : (inicializar_matcher b s).matriz_similaridade_global with
    | none => rfl
    | some M2 =>
      cases hI : (inicializar_matcher b s).trabalhadores.findIdx?
          (fun t => t.id == idt) with
      | none => rfl
      | some i =>
        simp only []
        by_cases hb : M2.length ≤ i
        · rw [dif_pos hb]
        · rw [dif_neg hb]
  · intro h2
    rw [h2]

/-- Witness for C3 at a concrete empty state over `ℚ` (no workers, so
re-initialization cannot rebuild the matrix). -/
theorem encontrar_matches_reinit_witness :
    (encontrar_matches_para_trabalhador qBackend
        ⟨[], [], none, none, none, [], []⟩ "t1" 3).2.2 = 1 ∧
    (encontrar_matches_para_trabalhador qBackend
        ⟨[], [], none, none, none, [], []⟩ "t1" 3).1 =
      .erro "Falha ao inicializar a matriz de similaridade." := by
  refine ⟨(encontrar_matches_reinit qBackend _ "t1" 3 rfl).1,
    (encontrar_matches_reinit qBackend _ "t1" 3 rfl).2 rfl⟩

/-! ## Claim C4 — unknown worker ids give a NotFound failure -/

/-- C4.  For every worker id that matches no record, the call (on a
valid cached matrix) returns the structured not-found dictionary, which
differs from the initialization-failure dictionary for every id, and no
exception escapes (the model is total). -/
theorem encontrar_matches_not_found (b : Backend α) (s : MatcherState α)
    (M : List (List α)) (idt : String) (n : ℤ)
    (hM : s.matriz_similaridade_global = some M)
    (hid : ∀ t ∈ s.trabalhadores, t.id ≠ idt) :
    (encontrar_matches_para_trabalhador b s idt n).1 =
      .erro ("Trabalhador com ID '" ++ idt ++ "' não encontrado.") ∧
    ∀ idv : String,
      ("Trabalhador com ID '" ++ idv ++ "' não encontrado.") ≠
        "Falha ao inicializar a matriz de similaridade." := by
  constructor
  · unfold encontrar_matches_para_trabalhador
    simp only [hM, Option.isSome_some, if_true]
    have hI : s.trabalhadores.findIdx? (fun t => t.id == idt) = none := by
      rw [List.findIdx?_eq_none_iff]
      intro t ht
      simpa using hid t ht
    rw [hI]
  · intro idv heq
    have hdata := congrArg String.data heq
    rw [String.data_append, String.data_append] at hdata
    rw [show ("Trabalhador com ID '" : String).data =
      'T' :: ("rabalhador com ID '" : String).data from rfl] at hdata
    rw [List.cons_append, List.cons_append] at hdata
    have hhead := congrArg List.head? hdata
    simp only [List.head?_cons] at hhead
    exact absurd (Option.some.inj hhead) (by decide)

/-- Witness for C4: the id `"zz"` matches no sample worker. -/
theorem encontrar_matches_not_found_witness :
    (encontrar_matches_para_trabalhador qBackend
        ⟨trabalhadores, vagas, none, some [[1/2]], none, [], []⟩ "zz" 3).1 =
      .erro ("Trabalhador com ID 'zz' não encontrado.") ∧
    ("Trabalhador com ID 'zz' não encontrado." : String) ≠
      "Falha ao inicializar a matriz de similaridade." := by
  have h := encontrar_matches_not_found qBackend
    ⟨trabalhadores, vagas, none, some [[1/2]], none, [], []⟩ [[1/2]] "zz" 3 rfl
    (by decide)
  exact ⟨h.1, h.2 "zz"⟩

/-! ## Claims C1 and C2 — the ranking guarantee -/

lemma emitEntry_sim (vs : List Vaga) (p : ℕ × α) :
    (emitEntry vs p).similaridade = pyRound4 p.2 := by
  unfold emitEntry
  cases vs.get? p.1 <;> rfl

lemma fst_lt_of_mem_enumFrom {β : Type} :
    ∀ (l : List β) (k : ℕ) (p : ℕ × β), p ∈ List.enumFrom k l →
      p.1 < k + l.length := by
  intro l
  induction l with
  | nil => intro k p hp; cases hp
  | cons x xs ih =>
    intro k p hp
    rw [List.enumFrom_cons] at hp
    rcases List.mem_cons.mp hp with h | h
    · rw [h]
      simp
    · have := ih (k + 1) p h
      simp only [List.length_cons]
      omega

lemma findIdx_of_id_mem {ts : List Trabalhador} {idt : String}
    (hid : idt ∈ ts.map Trabalhador.id) :
    ∃ i, ts.findIdx? (fun t => t.id == idt) = some i ∧ i < ts.length := by
  cases hI : ts.findIdx? (fun t => t.id == idt) with
  | none =>
    exfalso
    rw [List.findIdx?_eq_none_iff] at hI
    obtain ⟨t, ht, hteq⟩ := List.mem_map.mp hid
    have hf := hI t ht
    rw [hteq] at hf
    simp at hf
  | some i =>
    exact ⟨i, rfl, (List.findIdx?_eq_some_iff_findIdx_eq.mp hI).1⟩

/-- C1.  For every cached matrix that covers the worker list and whose
positive entries clear the rounding threshold `1/20000` (as the actual
sample-data matrix does — `actualSimMatrix_entriesGood` below), every
worker id present in the worker list and every `top_n ≥ 1`: the call
succeeds with a list of length ≤ `top_n`, the emitted (rounded)
similarities are non-increasing, the list is the in-order emission of a
`lexRel`-sorted pair list drawn from the worker's sorted row (score
descending, ties by original job position — the stable tie-break), and
every emitted similarity is positive. -/
theorem encontrar_matches_guarantee (b : Backend α) (s : MatcherState α)
    (M : List (List α)) (idt : String) (top_n : ℤ)
    (hM : s.matriz_similaridade_global = some M)
    (hgood : EntriesGood M)
    (hlen : s.trabalhadores.length ≤ M.length)
    (hid : idt ∈ s.trabalhadores.map Trabalhador.id)
    (htop : 1 ≤ top_n) :
    ∃ l : List (MatchEntry α),
      (encontrar_matches_para_trabalhador b s idt top_n).1 = .ok l ∧
      (l.length : ℤ) ≤ top_n ∧
      l.Chain' (fun e1 e2 => e2.similaridade ≤ e1.similaridade) ∧
      (∀ e ∈ l, 0 < e.similaridade) ∧
      ∃ (i : ℕ) (hi : i < M.length) (sub : List (ℕ × α)),
        s.trabalhadores.findIdx? (fun t => t.id == idt) = some i ∧
        sub.Sorted lexRel ∧
        sub.Sublist (matchesOrdenados (M.get ⟨i, hi⟩)) ∧
        l = sub.map (emitEntry s.vagas) := by
  obtain ⟨i, hI, hilt⟩ := findIdx_of_id_mem hid
  have hiM : i < M.length := lt_of_lt_of_le hilt hlen
  have hres : (encontrar_matches_para_trabalhador b s idt top_n).1 =
      .ok (montarResultado s.vagas
        (pyTake top_n (matchesOrdenados (M.get ⟨i, hiM⟩)))) := by
    unfold encontrar_matches_para_trabalhador
    simp only [hM, Option.isSome_some, if_true]
    rw [hI]
    simp only []
    rw [dif_neg (not_le.mpr hiM)]
  set row := M.get ⟨i, hiM⟩ with hrowdef
  set P := pyTake top_n (matchesOrdenados row) with hP
  set sub := P.filter (keepPair s.vagas) with hsub
  have hmontar : montarResultado s.vagas P = sub.map (emitEntry s.vagas) :=
    montarResultado_eq s.vagas P
  have hsubP : sub.Sublist P := List.filter_sublist P
  have hPsor : P.Sorted lexRel :=
    (matchesOrdenados_sorted row).sublist (pyTake_sublist top_n _)
  have hsubsor : sub.Sorted lexRel := hPsor.sublist hsubP
  have hsubM : sub.Sublist (matchesOrdenados row) :=
    hsubP.trans (pyTake_sublist top_n _)
  have hmem : ∀ p ∈ sub, 0 < p.2 ∧ 1 / 20000 < p.2 := by
    intro p hp
    have hkeep := List.of_mem_filter hp
    unfold keepPair at hkeep
    rw [Bool.and_eq_true, decide_eq_true_eq, decide_eq_true_eq] at hkeep
    have hpos : (0 : α) < p.2 := hkeep.1
    have hpe : p ∈ row.enum :=
      (matchesOrdenados_perm row).mem_iff.mp (hsubM.mem hp)
    have hsndmem : p.2 ∈ row := snd_mem_of_mem_enumFrom row 0 p hpe
    have hrowM : row ∈ M := List.get_mem M i hiM
    exact ⟨hpos, hgood row hrowM p.2 hsndmem hpos⟩
  refine ⟨sub.map (emitEntry s.vagas), by rw [hres, hmontar], ?_, ?_, ?_,
    i, hiM, sub, hI, hsubsor, hsubM, rfl⟩
  · rw [List.length_map]
    have h1 : sub.length ≤ P.length := List.length_filter_le _ _
    have h2 : (P.length : ℤ) ≤ top_n :=
      pyTake_length_le (le_trans zero_le_one htop) _
    omega
  · rw [List.chain'_map]
    apply List.Chain'.imp ?_ (List.Pairwise.chain' hsubsor)
    intro p q hpq
    rw [emitEntry_sim, emitEntry_sim]
    exact pyRound4_mono (lexRel_snd_le hpq)
  · intro e he
    obtain ⟨p, hp, hpe⟩ := List.mem_map.mp he
    rw [← hpe, emitEntry_sim]
    exact pyRound4_pos (hmem p hp).2

/-- Witness for C1 at a concrete one-worker state over `ℚ`. -/
theorem encontrar_matches_guarantee_witness :
    ∃ l : List (MatchEntry ℚ),
      (encontrar_matches_para_trabalhador qBackend
          ⟨[⟨"t1", "n", "h", "e"⟩], vagas, none,
            some [[1/2, 1/2, 1/4, 0]], none, [], []⟩ "t1" 3).1 = .ok l ∧
      (l.length : ℤ) ≤ 3 ∧
      l.Chain' (fun e1 e2 => e2.similaridade ≤ e1.similaridade) ∧
      (∀ e ∈ l, 0 < e.similaridade) ∧
      ∃ (i : ℕ) (hi : i < [[(1 : ℚ)/2, 1/2, 1/4, 0]].length)
        (sub : List (ℕ × ℚ)),
        List.findIdx? (fun t => t.id == "t1")
          [(⟨"t1", "n", "h", "e"⟩ : Trabalhador)] = some i ∧
        sub.Sorted lexRel ∧
        sub.Sublist (matchesOrdenados
          ([[(1 : ℚ)/2, 1/2, 1/4, 0]].get ⟨i, hi⟩)) ∧
        l = sub.map (emitEntry vagas) :=
  encontrar_matches_guarantee qBackend
    ⟨[⟨"t1", "n", "h", "e"⟩], vagas, none, some [[1/2, 1/2, 1/4, 0]], none, [], []⟩
    [[1/2, 1/2, 1/4, 0]] "t1" 3 rfl
    (by
      unfold EntriesGood
      intro row hrow x hx hpos
      rw [List.mem_singleton] at hrow
      subst hrow
      rcases List.mem_cons.mp hx with h | h
      · rw [h]; norm_num
      rcases List.mem_cons.mp h with h2 | h2
      · rw [h2]; norm_num
      rcases List.mem_cons.mp h2 with h3 | h3
      · rw [h3]; norm_num
      rw [List.mem_singleton] at h3
      rw [h3] at hpos
      norm_num at hpos)
    (by decide) (by decide) (by decide)

/-- C2.  With a valid cached matrix whose rows fit inside the job list:
the result equals the filter-then-truncate pipeline — sort the
`(position, score)` pairs descending, drop every non-positive score
(`NaN` cannot arise: field-valued cosine scores are real), take up to
`top_n` of the remainder in sorted order, and emit them.  (The source
truncates before filtering, but on a descending-sorted list the two
pipelines coincide, which is what this theorem proves.)  Consequently,
every worker whose row holds at least `top_n` positive scores gets
exactly `top_n` matches. -/
theorem encontrar_matches_filter_then_truncate (b : Backend α)
    (s : MatcherState α) (M : List (List α)) (idt : String) (top_n : ℤ)
    (hM : s.matriz_similaridade_global = some M)
    (hlen : s.trabalhadores.length ≤ M.length)
    (hrows : ∀ row ∈ M, row.length ≤ s.vagas.length)
    (hid : idt ∈ s.trabalhadores.map Trabalhador.id)
    (htop : 0 ≤ top_n) :
    ∃ (i : ℕ) (hi : i < M.length),
      s.trabalhadores.findIdx? (fun t => t.id == idt) = some i ∧
      (encontrar_matches_para_trabalhador b s idt top_n).1 =
        .ok ((((matchesOrdenados (M.get ⟨i, hi⟩)).filter
            (fun p => decide ((0 : α) < p.2))).take top_n.toNat).map
          (emitEntry s.vagas)) ∧
      (top_n.toNat ≤ ((M.get ⟨i, hi⟩).filter
          (fun x => decide ((0 : α) < x))).length →
        ((((matchesOrdenados (M.get ⟨i, hi⟩)).filter
            (fun p => decide ((0 : α) < p.2))).take top_n.toNat).map
          (emitEntry s.vagas)).length = top_n.toNat) := by
  obtain ⟨i, hI, hilt⟩ := findIdx_of_id_mem hid
  have hiM : i < M.length := lt_of_lt_of_le hilt hlen
  have hres : (encontrar_matches_para_trabalhador b s idt top_n).1 =
      .ok (montarResultado s.vagas
        (pyTake top_n (matchesOrdenados (M.get ⟨i, hiM⟩)))) := by
    unfold encontrar_matches_para_trabalhador
    simp only [hM, Option.isSome_some, if_true]
    rw [hI]
    simp only []
    rw [dif_neg (not_le.mpr hiM)]
  set row := M.get ⟨i, hiM⟩ with hrowdef
  have hrowlen : row.length ≤ s.vagas.length :=
    hrows row (List.get_mem M i hiM)
  have hbound : ∀ p ∈ matchesOrdenados row, p.1 < s.vagas.length := by
    intro p hp
    have hpe : p ∈ row.enum := (matchesOrdenados_perm row).mem_iff.mp hp
    have := fst_lt_of_mem_enumFrom row 0 p hpe
    omega
  have hkeep : ∀ p ∈ pyTake top_n (matchesOrdenados row),
      keepPair s.vagas p = decide ((0 : α) < p.2) := by
    intro p hp
    have hpm : p ∈ matchesOrdenados row := List.Sublist.mem hp (pyTake_sublist top_n _)
    unfold keepPair
    rw [decide_eq_true_eq.mpr (hbound p hpm), Bool.and_true]
  have hpipe : (pyTake top_n (matchesOrdenados row)).filter (keepPair s.vagas) =
      ((matchesOrdenados row).filter
        (fun p => decide ((0 : α) < p.2))).take top_n.toNat := by
    rw [List.filter_congr hkeep, pyTake_nonneg_eq htop]
    exact filter_take_comm (matchesOrdenados row) (matchesOrdenados_sorted row)
      top_n.toNat
  refine ⟨i, hiM, hI, ?_, ?_⟩
  · rw [hres, montarResultado_eq, hpipe]
  · intro hcount
    rw [List.length_map, List.length_take, ← hrowdef]
    have hperm : ((matchesOrdenados row).filter
        (fun p => decide ((0 : α) < p.2))).length =
        (row.filter (fun x => decide ((0 : α) < x))).length := by
      have h1 := (List.Perm.filter (fun p => decide ((0 : α) < p.2))
        (matchesOrdenados_perm row)).length_eq
      rw [h1, show row.enum = List.enumFrom 0 row from rfl]
      exact length_filter_enumFrom row 0
    have hcount2 : top_n.toNat ≤ (row.filter
        (fun x => decide ((0 : α) < x))).length := hcount
    omega

/-- Witness for C2 at a concrete one-worker state over `ℚ` with three
positive scores and `top_n = 2`. -/
theorem encontrar_matches_filter_then_truncate_witness :
    ∃ (i : ℕ) (hi : i < [[(1 : ℚ)/2, 1/2, 1/4, 0]].length),
      List.findIdx? (fun t => t.id == "t1")
        [(⟨"t1", "n", "h", "e"⟩ : Trabalhador)] = some i ∧
      (encontrar_matches_para_trabalhador qBackend
          ⟨[⟨"t1", "n", "h", "e"⟩], vagas, none,
            some [[1/2, 1/2, 1/4, 0]], none, [], []⟩ "t1" 2).1 =
        .ok ((((matchesOrdenados ([[(1 : ℚ)/2, 1/2, 1/4, 0]].get ⟨i, hi⟩)).filter
            (fun p => decide ((0 : ℚ) < p.2))).take (2 : ℤ).toNat).map
          (emitEntry vagas)) ∧
      ((2 : ℤ).toNat ≤ (([[(1 : ℚ)/2, 1/2, 1/4, 0]].get ⟨i, hi⟩).filter
          (fun x => decide ((0 : ℚ) < x))).length →
        ((((matchesOrdenados ([[(1 : ℚ)/2, 1/2, 1/4, 0]].get ⟨i, hi⟩)).filter
            (fun p => decide ((0 : ℚ) < p.2))).take (2 : ℤ).toNat).map
          (emitEntry vagas)).length = (2 : ℤ).toNat) :=
  encontrar_matches_filter_then_truncate qBackend
    ⟨[⟨"t1", "n", "h", "e"⟩], vagas, none, some [[1/2, 1/2, 1/4, 0]], none, [], []⟩
    [[1/2, 1/2, 1/4, 0]] "t1" 2 rfl (by decide) (by decide) (by decide) (by decide)

end Ranker

/-! ## Claim C8 — shape and range of the cached similarity matrix -/

section Cosine

variable {α : Type} [LinearOrderedField α]

lemma sum_map_sq_nonneg (a : List α) : 0 ≤ (a.map (· ^ 2)).sum :=
  List.sum_nonneg (by
    intro x hx
    obtain ⟨y, _, rfl⟩ := List.mem_map.mp hx
    exact sq_nonneg y)

lemma zipWith_mul_sum_nonneg : ∀ (a b : List α), (∀ x ∈ a, 0 ≤ x) →
    (∀ y ∈ b, 0 ≤ y) → 0 ≤ (List.zipWith (· * ·) a b).sum := by
  intro a
  induction a with
  | nil => intro b _ _; simp
  | cons x a' ih =>
    intro b ha hb
    cases b with
    | nil => simp
    | cons y b' =>
      rw [List.zipWith_cons_cons, List.sum_cons]
      have h1 : 0 ≤ x * y :=
        mul_nonneg (ha x (List.mem_cons_self _ _)) (hb y (List.mem_cons_self _ _))
      have h2 := ih b' (fun z hz => ha z (List.mem_cons_of_mem _ hz))
        (fun z hz => hb z (List.mem_cons_of_mem _ hz))
      linarith

/-- Cauchy–Schwarz for truncating list products. -/
lemma zipWith_mul_sq_le : ∀ (a b : List α),
    ((List.zipWith (· * ·) a b).sum) ^ 2 ≤
      ((a.map (· ^ 2)).sum) * ((b.map (· ^ 2)).sum) := by
  intro a
  induction a with
  | nil => intro b; simp
  | cons x a' ih =>
    intro b
    cases b with
    | nil => simp
    | cons y b' =>
      rw [List.zipWith_cons_cons, List.map_cons, List.map_cons, List.sum_cons,
        List.sum_cons, List.sum_cons]
      have hA : 0 ≤ (a'.map (· ^ 2)).sum := sum_map_sq_nonneg a'
      have hB : 0 ≤ (b'.map (· ^ 2)).sum := sum_map_sq_nonneg b'
      have hIH := ih b'
      rcases eq_or_lt_of_le hB with hB0 | hBpos
      · have hS2 : ((List.zipWith (· * ·) a' b').sum) ^ 2 = 0 :=
          le_antisymm (by nlinarith) (sq_nonneg _)
        have hS := (pow_eq_zero_iff (two_ne_zero)).mp hS2
        rw [hS, ← hB0]
        nlinarith [mul_nonneg hA (sq_nonneg y)]
      · nlinarith [sq_nonneg ((List.zipWith (· * ·) a' b').sum * y -
          (b'.map (· ^ 2)).sum * x),
          mul_le_mul_of_nonneg_right hIH hB,
          mul_le_mul_of_nonneg_right hIH (sq_nonneg y),
          mul_nonneg hA hB, sq_nonneg x, sq_nonneg y]

lemma le_of_sq_le_sq' {x y : α} (h : x ^ 2 ≤ y ^ 2) (hx : 0 ≤ x)
    (hy : 0 ≤ y) : x ≤ y := by
  by_contra hc
  push_neg at hc
  have := pow_lt_pow_left₀ hc hy (two_ne_zero)
  linarith

/-- C8.  After a successful initialization — both record lists
non-empty, the vectorizer fit succeeded on the combined corpus, the
TF-IDF matrix has one (componentwise non-negative) row per document, and
`cosine_similarity` meets its documented contract — the cached matrix is
exactly the cosine-similarity matrix of the first `len(workers)` rows
against the remaining rows (row `i` ↔ worker at position `i`, column
`j` ↔ job at position `j`), has `len(workers)` rows and `len(jobs)`
columns, and every entry lies in `[0, 1]`. -/
theorem inicializar_matcher_matrix (b : Backend α) (s : MatcherState α)
    (m : List (List α))
    (hT : s.trabalhadores ≠ []) (hV : s.vagas ≠ [])
    (hfit : b.fitTransform
      ((s.trabalhadores.map (fun t => criar_documento t.toItem "trabalhador")) ++
        (s.vagas.map (fun v => criar_documento v.toItem "vaga"))) = some m)
    (hmlen : m.length = s.trabalhadores.length + s.vagas.length)
    (hnn : ∀ row ∈ m, ∀ x ∈ row, 0 ≤ x)
    (hcos : CosineOutput (m.take s.trabalhadores.length)
      (m.drop s.trabalhadores.length)
      (b.cosineSim (m.take s.trabalhadores.length)
        (m.drop s.trabalhadores.length))) :
    (inicializar_matcher b s).matriz_similaridade_global =
      some (b.cosineSim (m.take s.trabalhadores.length)
        (m.drop s.trabalhadores.length)) ∧
    (b.cosineSim (m.take s.trabalhadores.length)
      (m.drop s.trabalhadores.length)).length = s.trabalhadores.length ∧
    (∀ row ∈ b.cosineSim (m.take s.trabalhadores.length)
      (m.drop s.trabalhadores.length), row.length = s.vagas.length) ∧
    ∀ row ∈ b.cosineSim (m.take s.trabalhadores.length)
      (m.drop s.trabalhadores.length), ∀ x ∈ row, 0 ≤ x ∧ x ≤ 1 := by
  obtain ⟨hC1, hC2, hC3⟩ := hcos
  have hLle : s.trabalhadores.length ≤ m.length := by omega
  have htake : (m.take s.trabalhadores.length).length =
      s.trabalhadores.length := by
    rw [List.length_take]
    omega
  have hdrop : (m.drop s.trabalhadores.length).length = s.vagas.length := by
    rw [List.length_drop]
    omega
  refine ⟨?_, by rw [hC1, htake], fun row hrow => by rw [hC2 row hrow, hdrop], ?_⟩
  · have hc1 : (s.trabalhadores.map (fun t =>
        criar_documento t.toItem "trabalhador")).isEmpty = false :=
      List.isEmpty_eq_false.mpr (by rwa [ne_eq, List.map_eq_nil_iff])
    have hc2 : (s.vagas.map (fun v =>
        criar_documento v.toItem "vaga")).isEmpty = false :=
      List.isEmpty_eq_false.mpr (by rwa [ne_eq, List.map_eq_nil_iff])
    simp only [inicializar_matcher, hc1, hc2, Bool.or_self, Bool.false_eq_true,
      if_false, hfit, List.length_map]
  · intro row hrow x hx
    obtain ⟨⟨i, hi⟩, hrowi⟩ := List.mem_iff_get.mp hrow
    subst hrowi
    obtain ⟨⟨j, hj⟩, hxj⟩ := List.mem_iff_get.mp hx
    subst hxj
    obtain ⟨hia, hjb, na, nb, hna, hnb, hna2, hnb2, hval⟩ := hC3 i j hi hj
    set a := (m.take s.trabalhadores.length).get ⟨i, hia⟩ with hadef
    set bb := (m.drop s.trabalhadores.length).get ⟨j, hjb⟩ with hbdef
    have hamem : a ∈ m :=
      List.mem_of_mem_take (List.get_mem _ i hia)
    have hbmem : bb ∈ m :=
      List.Sublist.mem (List.get_mem _ j hjb) (List.drop_sublist _ _)
    have hannn : ∀ z ∈ a, 0 ≤ z := hnn a hamem
    have hbnnn : ∀ z ∈ bb, 0 ≤ z := hnn bb hbmem
    have hdot : 0 ≤ (List.zipWith (· * ·) a bb).sum :=
      zipWith_mul_sum_nonneg a bb hannn hbnnn
    rw [hval]
    split_ifs with hzero
    · exact ⟨le_refl 0, zero_le_one⟩
    · have hprod : 0 < na * nb :=
        lt_of_le_of_ne (mul_nonneg hna hnb) (Ne.symm hzero)
      constructor
      · exact div_nonneg hdot (le_of_lt hprod)
      · rw [div_le_one hprod]
        apply le_of_sq_le_sq' ?_ hdot (le_of_lt hprod)
        rw [mul_pow, hna2, hnb2]
        exact zipWith_mul_sq_le a bb

/-- Witness for C8: a one-worker, one-job state over `ℚ` with the unit
backend, whose cosine output contract holds with magnitudes 1. -/
theorem inicializar_matcher_matrix_witness :
    (inicializar_matcher qBackend
        ⟨[⟨"t1", "n", "h", "e"⟩], [⟨"v1", "t", "c", "r", "d"⟩],
          none, none, none, [], []⟩).matriz_similaridade_global =
      some (qBackend.cosineSim ([[1], [1]].take 1) ([[1], [1]].drop 1)) ∧
    (qBackend.cosineSim ([[1], [1]].take 1) ([[1], [1]].drop 1)).length = 1 ∧
    (∀ row ∈ qBackend.cosineSim ([[1], [1]].take 1) ([[1], [1]].drop 1),
      row.length = 1) ∧
    ∀ row ∈ qBackend.cosineSim ([[1], [1]].take 1) ([[1], [1]].drop 1),
      ∀ x ∈ row, 0 ≤ x ∧ x ≤ 1 := by
  have hred : qBackend.cosineSim ([[(1 : ℚ)], [1]].take 1)
      ([[(1 : ℚ)], [1]].drop 1) = [[1]] := by
    norm_num [qBackend]
  have hco : CosineOutput ([[(1 : ℚ)], [1]].take 1) ([[(1 : ℚ)], [1]].drop 1)
      (qBackend.cosineSim ([[(1 : ℚ)], [1]].take 1)
        ([[(1 : ℚ)], [1]].drop 1)) := by
    rw [hred, show ([[(1 : ℚ)], [1]].take 1) = [[(1 : ℚ)]] from rfl,
      show ([[(1 : ℚ)], [1]].drop 1) = [[(1 : ℚ)]] from rfl]
    refine ⟨rfl, ?_, ?_⟩
    · intro row hrow
      rw [List.mem_singleton] at hrow
      subst hrow
      rfl
    · intro i j hi hj
      have hi1 : i = 0 := Nat.lt_one_iff.mp (by simpa using hi)
      subst hi1
      have hj1 : j = 0 := Nat.lt_one_iff.mp (by simpa using hj)
      subst hj1
      exact ⟨by norm_num, by norm_num, 1, 1, by norm_num, by norm_num,
        by norm_num, by norm_num, by norm_num⟩
  have h := inicializar_matcher_matrix qBackend
    ⟨[⟨"t1", "n", "h", "e"⟩], [⟨"v1", "t", "c", "r", "d"⟩],
      none, none, none, [], []⟩ [[1], [1]]
    (by decide) (by decide) rfl rfl
    (by
      intro row hrow x hx
      rcases List.mem_cons.mp hrow with h | h
      · subst h
        rw [List.mem_singleton] at hx
        subst hx
        norm_num
      · rw [List.mem_singleton] at h
        subst h
        rw [List.mem_singleton] at hx
        subst hx
        norm_num)
    hco
  exact h

end Cosine

/-! ## The actual sample data: every positive similarity clears the
rounding threshold

These lemmas ground hypothesis `EntriesGood` of the ranking guarantee
for the matrix the module actually caches: any matrix satisfying
`ActualSimMatrix` (the mathematical characterization of the TF-IDF
cosine matrix of the sample data) satisfies `EntriesGood`. -/

section ActualData

lemma token_mem_vocab {d : String} (hd : d ∈ corpusDocs) {t : List Char}
    (ht : t ∈ tokensOf d) : t ∈ vocabFinset := by
  unfold vocabFinset
  rw [List.mem_toFinset, List.mem_flatten]
  exact ⟨tokensOf d, List.mem_map_of_mem tokensOf hd, ht⟩

lemma df_bounds {t : List Char} (ht : t ∈ vocabFinset) :
    1 ≤ df t ∧ df t ≤ corpusDocs.length := by
  constructor
  · unfold vocabFinset at ht
    rw [List.mem_toFinset, List.mem_flatten] at ht
    obtain ⟨toks, htoks, htt⟩ := ht
    obtain ⟨d, hdmem, rfl⟩ := List.mem_map.mp htoks
    unfold df
    apply List.length_pos_of_mem (a := d)
    rw [List.mem_filter]
    exact ⟨hdmem, by simpa using htt⟩
  · exact List.length_filter_le _ _

lemma corpusDocs_length : corpusDocs.length = 8 := by
  unfold corpusDocs docs_trabalhadores docs_vagas
  rw [List.length_append, List.length_map, List.length_map]
  rfl

/-- The smoothed idf `ln((1+n)/(1+df)) + 1` of a vocabulary term lies in
`[1, 9/2]` (using `ln x ≤ x − 1`). -/
lemma idf_bounds {t : List Char} (ht : t ∈ vocabFinset) :
    1 ≤ Real.log ((1 + (corpusDocs.length : ℝ)) / (1 + (df t : ℝ))) + 1 ∧
    Real.log ((1 + (corpusDocs.length : ℝ)) / (1 + (df t : ℝ))) + 1 ≤ 9 / 2 := by
  obtain ⟨h1, h8⟩ := df_bounds ht
  rw [corpusDocs_length] at h8
  have hdf1 : (1 : ℝ) ≤ (df t : ℝ) := by exact_mod_cast h1
  have hdf8 : (df t : ℝ) ≤ 8 := by exact_mod_cast h8
  have hdfpos : (0 : ℝ) < 1 + (df t : ℝ) := by linarith
  have hn : ((corpusDocs.length : ℝ)) = 8 := by
    rw [corpusDocs_length]
    norm_num
  rw [hn]
  constructor
  · have harg : (1 : ℝ) ≤ (1 + 8) / (1 + (df t : ℝ)) := by
      rw [le_div_iff hdfpos]
      linarith
    have := Real.log_nonneg harg
    linarith
  · have hlog := Real.log_le_sub_one_of_pos
      (show (0 : ℝ) < (1 + 8) / (1 + (df t : ℝ)) by positivity)
    have hup : ((1 : ℝ) + 8) / (1 + (df t : ℝ)) ≤ 9 / 2 := by
      rw [div_le_iff hdfpos]
      linarith
    linarith

/-- `List.count` takes the same value under the derived `BEq` instance
and the decidable-equality one (both are lawful). -/
lemma count_instances_eq (x : List Char) : ∀ (l : List (List Char)),
    @List.count (List Char) instBEqOfDecidableEq x l =
      @List.count (List Char) List.instBEq x l := by
  intro l
  induction l with
  | nil => rfl
  | cons a as ih =>
    rw [@List.count_cons (List Char) instBEqOfDecidableEq,
      @List.count_cons (List Char) List.instBEq, ih]
    by_cases h : a = x
    · simp [h]
    · simp [h]

lemma sum_tf_sq_eq {d : String} (hd : d ∈ corpusDocs) :
    ∑ t ∈ vocabFinset, ((tf d t : ℝ)) ^ 2 = (sumSqCounts d : ℝ) := by
  have hsubset : (tokensOf d).toFinset ⊆ vocabFinset := by
    intro t ht
    exact token_mem_vocab hd (List.mem_toFinset.mp ht)
  have hzero : ∀ t ∈ vocabFinset, t ∉ (tokensOf d).toFinset →
      ((tf d t : ℝ)) ^ 2 = 0 := by
    intro t _ htns
    have h0 : tf d t = 0 := by
      unfold tf
      rw [List.count_eq_zero]
      intro hmem
      exact htns (List.mem_toFinset.mpr hmem)
    rw [h0]
    norm_num
  rw [← Finset.sum_subset hsubset hzero]
  have hnat : sumSqCounts d = ∑ t ∈ (tokensOf d).toFinset,
      (tf d t) * (tf d t) := by
    unfold sumSqCounts
    rw [Finset.sum_list_map_count]
    simp only [smul_eq_mul, count_instances_eq]
    rfl
  rw [hnat]
  push_cast
  apply Finset.sum_congr rfl
  intro t _
  ring

set_option maxRecDepth 10000 in
/-- Checked by evaluation on the sample data: every document's sum of
squared term counts is at most 900. -/
lemma corpus_sumSq_bound : ∀ d ∈ corpusDocs, sumSqCounts d ≤ 900 := by
  have h : corpusDocs.all (fun d => decide (sumSqCounts d ≤ 900)) = true := by
    decide
  intro d hd
  have h2 := List.all_eq_true.mp h d hd
  simpa using h2

/-- Any matrix meeting the mathematical characterization of the cached
similarity matrix of the sample data has all its positive entries above
`1/20000`: a positive cosine means a shared term, hence a dot product
≥ 1, while each magnitude is at most `(9/2)·30 = 135`, so the
similarity is at least `1/18225 > 1/20000`. -/
lemma actualSimMatrix_entriesGood {M : List (List ℝ)}
    (h : ActualSimMatrix M) : EntriesGood M := by
  obtain ⟨hlen, hrows, hentries⟩ := h
  intro row hrow x hxrow hpos
  obtain ⟨⟨i, hi⟩, hrowi⟩ := List.mem_iff_get.mp hrow
  subst hrowi
  obtain ⟨⟨j, hjr⟩, hxj⟩ := List.mem_iff_get.mp hxrow
  obtain ⟨na, nb, hna, hnb, hna2, hnb2, hval⟩ := hentries i j hi hjr
  rw [hxj] at hval
  have hiT : i < docs_trabalhadores.length := by rw [← hlen]; exact hi
  have hjV : j < docs_vagas.length := by
    rw [← hrows (M.get ⟨i, hi⟩) (List.get_mem M i hi)]
    exact hjr
  set dW := docs_trabalhadores.getD i "" with hdW
  set dV := docs_vagas.getD j "" with hdV
  have hdWmem : dW ∈ corpusDocs := by
    rw [hdW, List.getD_eq_get _ _ hiT]
    exact List.mem_append_left _ (List.get_mem _ i hiT)
  have hdVmem : dV ∈ corpusDocs := by
    rw [hdV, List.getD_eq_get _ _ hjV]
    exact List.mem_append_right _ (List.get_mem _ j hjV)
  have hQW : sumSqCounts dW ≤ 900 := corpus_sumSq_bound dW hdWmem
  have hQV : sumSqCounts dV ≤ 900 := corpus_sumSq_bound dV hdVmem
  -- the inline idf weight
  set idf := fun t : List Char =>
    Real.log ((1 + (corpusDocs.length : ℝ)) / (1 + (df t : ℝ))) + 1 with hidf
  have hidf1 : ∀ t ∈ vocabFinset, 1 ≤ idf t := fun t ht => (idf_bounds ht).1
  have hidf2 : ∀ t ∈ vocabFinset, idf t ≤ 9 / 2 := fun t ht => (idf_bounds ht).2
  have hidfnn : ∀ t ∈ vocabFinset, 0 ≤ idf t := fun t ht =>
    le_trans zero_le_one (hidf1 t ht)
  -- magnitude bounds
  have hmag : ∀ (d : String), d ∈ corpusDocs → sumSqCounts d ≤ 900 →
      ∀ n : ℝ, 0 ≤ n →
      n ^ 2 = ∑ t ∈ vocabFinset, ((tf d t : ℝ) * idf t) ^ 2 → n ≤ 135 := by
    intro d hdmem hQ n hn hn2
    have hsum : ∑ t ∈ vocabFinset, ((tf d t : ℝ) * idf t) ^ 2 ≤
        (81 / 4) * ∑ t ∈ vocabFinset, ((tf d t : ℝ)) ^ 2 := by
      rw [Finset.mul_sum]
      apply Finset.sum_le_sum
      intro t ht
      have h1 : ((tf d t : ℝ) * idf t) ^ 2 =
          ((tf d t : ℝ)) ^ 2 * (idf t) ^ 2 := by ring
      rw [h1]
      have hsq : (idf t) ^ 2 ≤ (9 / 2) ^ 2 := by
        apply pow_le_pow_left₀ (hidfnn t ht) (hidf2 t ht)
      have := mul_le_mul_of_nonneg_left hsq (sq_nonneg ((tf d t : ℝ)))
      calc ((tf d t : ℝ)) ^ 2 * (idf t) ^ 2
          ≤ ((tf d t : ℝ)) ^ 2 * (9 / 2) ^ 2 := this
        _ = 81 / 4 * ((tf d t : ℝ)) ^ 2 := by ring
    have hcast : ∑ t ∈ vocabFinset, ((tf d t : ℝ)) ^ 2 ≤ 900 := by
      rw [sum_tf_sq_eq hdmem]
      exact_mod_cast hQ
    have hle : n ^ 2 ≤ 135 ^ 2 := by
      rw [hn2]
      calc ∑ t ∈ vocabFinset, ((tf d t : ℝ) * idf t) ^ 2
          ≤ (81 / 4) * ∑ t ∈ vocabFinset, ((tf d t : ℝ)) ^ 2 := hsum
        _ ≤ (81 / 4) * 900 := by
            apply mul_le_mul_of_nonneg_left hcast
            norm_num
        _ = 135 ^ 2 := by norm_num
    exact le_of_sq_le_sq' hle hn (by norm_num)
  have hnaLe : na ≤ 135 := hmag dW hdWmem hQW na hna hna2
  have hnbLe : nb ≤ 135 := hmag dV hdVmem hQV nb hnb hnb2
  -- the positive branch of the entry formula
  by_cases hzero : na * nb = 0
  · rw [if_pos hzero] at hval
    rw [hval] at hpos
    exact absurd hpos (lt_irrefl 0)
  · rw [if_neg hzero] at hval
    have hprod : 0 < na * nb :=
      lt_of_le_of_ne (mul_nonneg hna hnb) (Ne.symm hzero)
    set dot := ∑ t ∈ vocabFinset,
      ((tf dW t : ℝ) * idf t) * ((tf dV t : ℝ) * idf t) with hdot
    have hdotpos : 0 < dot := by
      have hxe : x * (na * nb) = dot := by
        rw [hval]
        exact div_mul_cancel₀ _ hzero
      rw [← hxe]
      exact mul_pos hpos hprod
    -- dot ≥ 1 via the shared-term count
    have hdot1 : (1 : ℝ) ≤ dot := by
      set T := ∑ t ∈ vocabFinset, tf dW t * tf dV t with hT
      have hTle : (T : ℝ) ≤ dot := by
        rw [hT]
        push_cast
        apply Finset.sum_le_sum
        intro t ht
        have hterm : ((tf dW t : ℝ)) * ((tf dV t : ℝ)) * 1 ≤
            ((tf dW t : ℝ)) * ((tf dV t : ℝ)) * (idf t * idf t) := by
          apply mul_le_mul_of_nonneg_left ?_ ?_
          · have h1 := hidf1 t ht
            calc (1 : ℝ) = 1 * 1 := by ring
              _ ≤ idf t * idf t :=
                mul_le_mul h1 h1 zero_le_one (le_trans zero_le_one h1)
          · exact mul_nonneg (Nat.cast_nonneg _) (Nat.cast_nonneg _)
        calc ((tf dW t : ℝ)) * ((tf dV t : ℝ))
            = ((tf dW t : ℝ)) * ((tf dV t : ℝ)) * 1 := by ring
          _ ≤ ((tf dW t : ℝ)) * ((tf dV t : ℝ)) * (idf t * idf t) := hterm
          _ = ((tf dW t : ℝ) * idf t) * ((tf dV t : ℝ) * idf t) := by ring
      have hTne : T ≠ 0 := by
        intro hT0
        have hall := (Finset.sum_eq_zero_iff).mp hT0
        have hdot0 : dot = 0 := by
          rw [hdot]
          apply Finset.sum_eq_zero
          intro t ht
          have := hall t ht
          rcases Nat.mul_eq_zero.mp this with h0 | h0 <;>
            rw [h0] <;> norm_num
        rw [hdot0] at hdotpos
        exact absurd hdotpos (lt_irrefl 0)
      have hT1 : 1 ≤ T := Nat.one_le_iff_ne_zero.mpr hTne
      have : (1 : ℝ) ≤ (T : ℝ) := by exact_mod_cast hT1
      linarith
    -- assemble: x = dot / (na·nb) ≥ 1 / 18225 > 1 / 20000
    have hprodLe : na * nb ≤ 18225 := by
      calc na * nb ≤ 135 * 135 :=
            mul_le_mul hnaLe hnbLe hnb (by norm_num)
        _ = 18225 := by norm_num
    have hx1 : 1 / (na * nb) ≤ x := by
      rw [hval]
      rw [div_le_div_iff_of_pos_right hprod]
      exact hdot1
    have hx2 : (1 : ℝ) / 18225 ≤ 1 / (na * nb) :=
      one_div_le_one_div_of_le hprod hprodLe
    have : (1 : ℝ) / 20000 < 1 / 18225 := by norm_num
    linarith

end ActualData

end WorkSphere
